import Mathlib

/-!
A verification development for the clang-includes trace tools
(`clang-trace-to-profiler.js` and `clang-trace-to-dashboard.js`).

The JavaScript sources are shallowly embedded here: arrays become lists,
the event-matching loops become structural recursions, JavaScript object
identity (`!==` between elements of one array, where every element is a
freshly allocated object) is modelled by tagging every list element with
its position, and the string keys `` `${pid}-${tid}-${id}` `` of the end
map become triples (the decimal rendering of a triple of naturals is
injective, so the two keying schemes agree).  Timestamps are integers,
as in the traces the tools consume.
-/

namespace ClangIncludes

/-- One raw trace event, as consumed by both tools: phase (`"b"`, `"e"`, …),
timestamp, category, name, process/thread ids, the reused correlation id,
and the optional `args.detail` string of begin events. -/
structure RawEvent where
  ph : String
  ts : Int
  cat : String
  name : String
  pid : Nat
  tid : Nat
  id : Nat
  detail : Option String
  deriving DecidableEq, Repr

/-- A matched begin/end pair, as produced by `extractSourceMarkers` in both
tools: `{file, startTime, endTime, duration}`. -/
structure Interval where
  file : String
  startTime : Int
  endTime : Int
  duration : Int
  deriving DecidableEq, Repr

instance : Inhabited Interval := ⟨⟨"", 0, 0, 0⟩⟩

/-- JavaScript truthiness of `e.args && e.args.detail`: the detail string must
be present and non-empty. -/
def hasDetail (e : RawEvent) : Bool :=
  match e.detail with
  | some s => !s.isEmpty
  | none => false

/-- The composite key `` `${pid}-${tid}-${id}` `` of the end map, modelled as a
triple (decimal rendering of naturals is dash-free, so the string key is
injective in the triple). -/
def eventKey (e : RawEvent) : Nat × Nat × Nat := (e.pid, e.tid, e.id)

/-- `events.filter(e => e.cat === 'Source' && e.name === 'Source')`. -/
def sourceEvents (events : List RawEvent) : List RawEvent :=
  events.filter (fun e => e.cat == "Source" && e.name == "Source")

/-- `sourceEvents.filter(e => e.ph === 'b' && e.args && e.args.detail)`. -/
def beginEvents (events : List RawEvent) : List RawEvent :=
  (sourceEvents events).filter (fun e => e.ph == "b" && hasDetail e)

/-- `sourceEvents.filter(e => e.ph === 'e')`. -/
def endEvents (events : List RawEvent) : List RawEvent :=
  (sourceEvents events).filter (fun e => e.ph == "e")

/-- `endCandidates.find(e => e.ts > beginEvent.ts)`: the first event of the
pool, in pool order, whose timestamp is strictly above `ts`. -/
def findFirstAfter (ts : Int) : List RawEvent → Option RawEvent
  | [] => none
  | e :: rest => if ts < e.ts then some e else findFirstAfter ts rest

/-- `endCandidates.splice(endCandidates.indexOf(matchingEnd), 1)`: the matched
end is the first pool entry with `ts` strictly above the begin's, and `indexOf`
finds exactly that entry (an identical earlier entry would itself have been
found first), so removal drops the first entry with a qualifying timestamp. -/
def removeFirstAfter (ts : Int) : List RawEvent → List RawEvent
  | [] => []
  | e :: rest => if ts < e.ts then rest else e :: removeFirstAfter ts rest

/-- The interval pushed for a matched begin/end pair. -/
def mkInterval (b e : RawEvent) : Interval :=
  { file := b.detail.getD ""
    startTime := b.ts
    endTime := e.ts
    duration := e.ts - b.ts }

/-- The matching loop of `extractSourceMarkers`: for each begin event, look up
its key's pool, match the first not-yet-consumed end with a strictly larger
timestamp, and consume it.  `pools` is the state of the mutable end map. -/
def matchBegins : List RawEvent → ((Nat × Nat × Nat) → List RawEvent) → List Interval
  | [], _ => []
  | b :: rest, pools =>
    match findFirstAfter b.ts (pools (eventKey b)) with
    | some e =>
      mkInterval b e ::
        matchBegins rest (fun k =>
          if k = eventKey b then removeFirstAfter b.ts (pools (eventKey b)) else pools k)
    | none => matchBegins rest pools

/-- The interval-producing part of `extractSourceMarkers`, shared verbatim by
the two tools: the end map groups the end events by key in input order. -/
def extractIntervals (events : List RawEvent) : List Interval :=
  matchBegins (beginEvents events)
    (fun k => (endEvents events).filter (fun e => eventKey e = k))

/-! ### Position tagging

JavaScript compares array elements with `!==` (object identity); every
element of the arrays built by these tools is a freshly allocated object, so
identity coincides with array position.  `tag` pairs every element with its
position so that the embedding can express identity. -/

/-- Tag the elements of a list with consecutive positions starting at `k`. -/
def tagFrom {α : Type} : Nat → List α → List (Nat × α)
  | _, [] => []
  | k, a :: r => (k, a) :: tagFrom (k + 1) r

/-- Tag the elements of a list with their positions. -/
def tag {α : Type} (l : List α) : List (Nat × α) := tagFrom 0 l

theorem tagFrom_fst_ge {α : Type} :
    ∀ (k : Nat) (l : List α) (p : Nat × α), p ∈ tagFrom k l → k ≤ p.1 := by
  intro k l
  induction l generalizing k with
  | nil => intro p h; simp [tagFrom] at h
  | cons a r ih =>
    intro p h
    rcases List.mem_cons.mp h with heq | hmem
    · subst heq; exact Nat.le_refl _
    · exact Nat.le_of_succ_le (ih (k + 1) p hmem)

theorem tagFrom_fst_nodup {α : Type} :
    ∀ (k : Nat) (l : List α), ((tagFrom k l).map Prod.fst).Nodup := by
  intro k l
  induction l generalizing k with
  | nil => simp [tagFrom]
  | cons a r ih =>
    simp only [tagFrom, List.map_cons, List.nodup_cons]
    refine ⟨?_, ih (k + 1)⟩
    intro hmem
    rcases List.mem_map.mp hmem with ⟨p, hp, hfst⟩
    have := tagFrom_fst_ge (k + 1) r p hp
    omega

theorem tagFrom_filter_map_snd {α : Type} (P : α → Bool) :
    ∀ (k : Nat) (l : List α),
      ((tagFrom k l).filter (fun p => P p.2)).map Prod.snd = l.filter P := by
  intro k l
  induction l generalizing k with
  | nil => simp [tagFrom]
  | cons a r ih =>
    cases hP : P a with
    | true => simp [tagFrom, List.filter_cons, hP, ih]
    | false => simp [tagFrom, List.filter_cons, hP, ih]

/-- Members of a list whose position tags are duplicate-free are determined by
their tag. -/
theorem nodup_fst_inj {α : Type} :
    ∀ {l : List (Nat × α)}, (l.map Prod.fst).Nodup →
      ∀ {p q : Nat × α}, p ∈ l → q ∈ l → p.1 = q.1 → p = q := by
  intro l
  induction l with
  | nil => intro _ p q hp; simp at hp
  | cons a r ih =>
    intro hnd p q hp hq hfst
    simp only [List.map_cons, List.nodup_cons] at hnd
    rcases List.mem_cons.mp hp with hpa | hpr
    · rcases List.mem_cons.mp hq with hqa | hqr
      · rw [hpa, hqa]
      · exact absurd (List.mem_map.mpr ⟨q, hqr, by rw [← hfst, hpa]⟩) hnd.1
    · rcases List.mem_cons.mp hq with hqa | hqr
      · exact absurd (List.mem_map.mpr ⟨p, hpr, by rw [hfst, hqa]⟩) hnd.1
      · exact ih hnd.2 hpr hqr hfst

theorem findFirstAfter_lt {ts : Int} :
    ∀ {l : List RawEvent} {e : RawEvent}, findFirstAfter ts l = some e → ts < e.ts := by
  intro l
  induction l with
  | nil => intro e h; simp [findFirstAfter] at h
  | cons x rest ih =>
    intro e h
    by_cases hx : ts < x.ts
    · simp [findFirstAfter, hx] at h
      exact h ▸ hx
    · simp [findFirstAfter, hx] at h
      exact ih h

theorem matchBegins_pos :
    ∀ (begins : List RawEvent) (pools : (Nat × Nat × Nat) → List RawEvent)
      (iv : Interval), iv ∈ matchBegins begins pools →
      iv.startTime < iv.endTime ∧ iv.duration = iv.endTime - iv.startTime := by
  intro begins
  induction begins with
  | nil => intro pools iv h; simp [matchBegins] at h
  | cons b rest ih =>
    intro pools iv h
    unfold matchBegins at h
    cases hf : findFirstAfter b.ts (pools (eventKey b)) with
    | none => rw [hf] at h; exact ih _ iv h
    | some e =>
      rw [hf] at h
      rcases List.mem_cons.mp h with heq | hmem
      · subst heq
        exact ⟨findFirstAfter_lt hf, rfl⟩
      · exact ih _ iv hmem

/-- C10: every interval produced by the event matcher has a strictly larger
end timestamp than start timestamp, and hence a strictly positive raw
duration, for every input trace (including ones with reused correlation
ids). -/
theorem matcher_intervals_positive (events : List RawEvent) (iv : Interval)
    (hiv : iv ∈ extractIntervals events) :
    iv.startTime < iv.endTime ∧ iv.duration = iv.endTime - iv.startTime ∧ 0 < iv.duration := by
  obtain ⟨hlt, hdur⟩ := matchBegins_pos _ _ _ hiv
  refine ⟨hlt, hdur, ?_⟩
  rw [hdur]
  omega

/-! ### Specification-level matchers (for C1)

Two specification-level descriptions of the matching pass, both written over
the position-tagged end-event list with an explicit set of consumed tags:

* `specFirstExtract` follows the amended wording: each begin is paired with
  the *first in input order* among the not-yet-consumed same-key end events
  whose timestamp is strictly greater than the begin's.
* `specEarliestExtract` follows the claim's wording literally: each begin is
  paired with the not-yet-consumed same-key end event of *smallest timestamp*
  among those strictly after the begin. -/

/-- An end event `p` is a candidate for a begin with key `k` and timestamp
`ts`: not yet consumed, same key, and strictly later. -/
def specCand (consumed : List Nat) (k : Nat × Nat × Nat) (ts : Int)
    (p : Nat × RawEvent) : Bool :=
  decide (p.1 ∉ consumed) && decide (eventKey p.2 = k) && decide (ts < p.2.ts)

/-- Pair every begin with its first-in-input-order candidate end, consuming
the matched end's tag. -/
def specLoop (ends : List (Nat × RawEvent)) :
    List RawEvent → List Nat → List Interval
  | [], _ => []
  | b :: rest, consumed =>
    match ends.find? (specCand consumed (eventKey b) b.ts) with
    | some p => mkInterval b p.2 :: specLoop ends rest (p.1 :: consumed)
    | none => specLoop ends rest consumed

/-- The first-in-input-order specification of `extractSourceMarkers`. -/
def specFirstExtract (events : List RawEvent) : List Interval :=
  specLoop (tag (endEvents events)) (beginEvents events) []

/-- The candidate with the smallest timestamp (first such in input order). -/
def earliestPick (cands : List (Nat × RawEvent)) : Option (Nat × RawEvent) :=
  cands.foldl
    (fun best p =>
      match best with
      | none => some p
      | some q => if p.2.ts < q.2.ts then some p else some q)
    none

/-- Pair every begin with its earliest-by-timestamp candidate end, consuming
the matched end's tag.  This is the claim's reading of the matcher. -/
def specEarliestLoop (ends : List (Nat × RawEvent)) :
    List RawEvent → List Nat → List Interval
  | [], _ => []
  | b :: rest, consumed =>
    match earliestPick (ends.filter (specCand consumed (eventKey b) b.ts)) with
    | some p => mkInterval b p.2 :: specEarliestLoop ends rest (p.1 :: consumed)
    | none => specEarliestLoop ends rest consumed

/-- The earliest-by-timestamp specification of `extractSourceMarkers`. -/
def specEarliestExtract (events : List RawEvent) : List Interval :=
  specEarliestLoop (tag (endEvents events)) (beginEvents events) []

/-- A trace whose same-key end events arrive out of timestamp order: one
begin at 100, then ends at 200 and 150 under the same key. -/
def c1Trace : List RawEvent :=
  [ { ph := "b", ts := 100, cat := "Source", name := "Source",
      pid := 1, tid := 1, id := 1, detail := some "a.h" },
    { ph := "e", ts := 200, cat := "Source", name := "Source",
      pid := 1, tid := 1, id := 1, detail := none },
    { ph := "e", ts := 150, cat := "Source", name := "Source",
      pid := 1, tid := 1, id := 1, detail := none } ]

/-- C1 (counterexample): on a trace whose same-key end pool is not in
timestamp order, the matcher pairs the begin at 100 with the end at 200 (the
first qualifying pool entry in input order), not with the earliest qualifying
end (150), so the claim's earliest-by-timestamp description is false. -/
theorem c1_counterexample :
    extractIntervals c1Trace = [⟨"a.h", 100, 200, 100⟩] ∧
      specEarliestExtract c1Trace = [⟨"a.h", 100, 150, 50⟩] ∧
      extractIntervals c1Trace ≠ specEarliestExtract c1Trace := by
  refine ⟨by decide, by decide, by decide⟩

/-- The per-key pool held by the end map after consuming the tags in
`consumed`: the not-yet-consumed end events with key `k`, in input order. -/
def filtPool (ends : List (Nat × RawEvent)) (consumed : List Nat)
    (k : Nat × Nat × Nat) : List RawEvent :=
  (ends.filter
      (fun p => decide (p.1 ∉ consumed) && decide (eventKey p.2 = k))).map
    Prod.snd

theorem filtPool_cons (p : Nat × RawEvent) (rest : List (Nat × RawEvent))
    (consumed : List Nat) (k : Nat × Nat × Nat) :
    filtPool (p :: rest) consumed k =
      if p.1 ∉ consumed ∧ eventKey p.2 = k then p.2 :: filtPool rest consumed k
      else filtPool rest consumed k := by
  by_cases h1 : p.1 ∈ consumed
  · simp [filtPool, List.filter_cons, h1]
  · by_cases h2 : eventKey p.2 = k
    · simp [filtPool, List.filter_cons, h1, h2]
    · simp [filtPool, List.filter_cons, h1, h2]

theorem specCand_iff (consumed : List Nat) (k : Nat × Nat × Nat) (ts : Int)
    (p : Nat × RawEvent) :
    specCand consumed k ts p = true ↔
      p.1 ∉ consumed ∧ eventKey p.2 = k ∧ ts < p.2.ts := by
  simp [specCand, and_assoc]

theorem findFirstAfter_filtPool (ends : List (Nat × RawEvent))
    (consumed : List Nat) (k : Nat × Nat × Nat) (ts : Int) :
    findFirstAfter ts (filtPool ends consumed k) =
      (ends.find? (specCand consumed k ts)).map Prod.snd := by
  induction ends with
  | nil => simp [filtPool, findFirstAfter]
  | cons p rest ih =>
    rw [filtPool_cons]
    by_cases h12 : p.1 ∉ consumed ∧ eventKey p.2 = k
    · rw [if_pos h12]
      by_cases h3 : ts < p.2.ts
      · have hc : specCand consumed k ts p = true :=
          (specCand_iff _ _ _ _).mpr ⟨h12.1, h12.2, h3⟩
        rw [List.find?_cons_of_pos _ hc]
        simp [findFirstAfter, h3]
      · have hc : ¬ specCand consumed k ts p = true := by
          rw [specCand_iff]; exact fun h => h3 h.2.2
        rw [List.find?_cons_of_neg _ hc]
        simp only [findFirstAfter, if_neg h3]
        exact ih
    · rw [if_neg h12]
      have hc : ¬ specCand consumed k ts p = true := by
        rw [specCand_iff]; exact fun h => h12 ⟨h.1, h.2.1⟩
      rw [List.find?_cons_of_neg _ hc]
      exact ih

/-- Consuming a tag that only occurs on end events with key `k` leaves every
other key's pool unchanged. -/
theorem filtPool_consume_otherkey (ends : List (Nat × RawEvent))
    (consumed : List Nat) (i : Nat) (k k' : Nat × Nat × Nat)
    (hkey : ∀ p ∈ ends, p.1 = i → eventKey p.2 = k) (hne : k' ≠ k) :
    filtPool ends (i :: consumed) k' = filtPool ends consumed k' := by
  induction ends with
  | nil => simp [filtPool]
  | cons p rest ih =>
    have ihr := ih (fun q hq => hkey q (List.mem_cons_of_mem _ hq))
    rw [filtPool_cons, filtPool_cons, ihr]
    by_cases hpi : p.1 = i
    · have hk : eventKey p.2 = k := hkey p (List.mem_cons_self _ _) hpi
      have hk' : ¬ eventKey p.2 = k' := by rw [hk]; exact fun h => hne h.symm
      rw [if_neg (fun h => hk' h.2), if_neg (fun h => hk' h.2)]
    · have hmem : p.1 ∉ i :: consumed ↔ p.1 ∉ consumed := by
        simp [List.mem_cons, hpi]
      by_cases h12 : p.1 ∉ consumed ∧ eventKey p.2 = k'
      · rw [if_pos ⟨hmem.mpr h12.1, h12.2⟩, if_pos h12]
      · rw [if_neg (fun h => h12 ⟨hmem.mp h.1, h.2⟩), if_neg h12]

/-- Consuming a tag that does not occur in the list leaves every pool
unchanged. -/
theorem filtPool_consume_absent (ends : List (Nat × RawEvent))
    (consumed : List Nat) (i : Nat) (k : Nat × Nat × Nat)
    (habs : i ∉ ends.map Prod.fst) :
    filtPool ends (i :: consumed) k = filtPool ends consumed k := by
  induction ends with
  | nil => simp [filtPool]
  | cons p rest ih =>
    have hpi : p.1 ≠ i := by
      intro h
      exact habs (List.mem_map.mpr ⟨p, List.mem_cons_self _ _, h⟩)
    have habs' : i ∉ rest.map Prod.fst := by
      intro h
      rcases List.mem_map.mp h with ⟨q, hq, hfst⟩
      exact habs (List.mem_map.mpr ⟨q, List.mem_cons_of_mem _ hq, hfst⟩)
    have ihr := ih habs'
    rw [filtPool_cons, filtPool_cons, ihr]
    have hmem : p.1 ∉ i :: consumed ↔ p.1 ∉ consumed := by
      simp [List.mem_cons, hpi]
    by_cases h12 : p.1 ∉ consumed ∧ eventKey p.2 = k
    · rw [if_pos ⟨hmem.mpr h12.1, h12.2⟩, if_pos h12]
    · rw [if_neg (fun h => h12 ⟨hmem.mp h.1, h.2⟩), if_neg h12]

/-- Removing the first qualifying entry from a key's pool is the same as
consuming the tag chosen by the first-in-input-order specification. -/
theorem removeFirstAfter_filtPool (ends : List (Nat × RawEvent))
    (consumed : List Nat) (k : Nat × Nat × Nat) (ts : Int)
    (i : Nat) (e : RawEvent)
    (hnd : (ends.map Prod.fst).Nodup)
    (hfind : ends.find? (specCand consumed k ts) = some (i, e)) :
    removeFirstAfter ts (filtPool ends consumed k) =
      filtPool ends (i :: consumed) k := by
  induction ends with
  | nil => simp [List.find?] at hfind
  | cons p rest ih =>
    simp only [List.map_cons, List.nodup_cons] at hnd
    cases hc : specCand consumed k ts p with
    | true =>
      rw [List.find?_cons_of_pos _ hc] at hfind
      have hpie : p = (i, e) := Option.some.inj hfind
      obtain ⟨h1, h2, h3⟩ := (specCand_iff _ _ _ _).mp hc
      have h1' : p.1 ∈ i :: consumed := by
        rw [hpie]; exact List.mem_cons_self _ _
      have habs : i ∉ rest.map Prod.fst := by
        rw [hpie] at hnd; exact hnd.1
      rw [filtPool_cons, if_pos ⟨h1, h2⟩, filtPool_cons,
        if_neg (fun h => h.1 h1'), filtPool_consume_absent rest consumed i k habs]
      simp [removeFirstAfter, h3]
    | false =>
      rw [List.find?_cons_of_neg _ (by simp [hc])] at hfind
      have hie_mem : (i, e) ∈ rest := List.mem_of_find?_eq_some hfind
      have hi_mem : i ∈ rest.map Prod.fst :=
        List.mem_map.mpr ⟨(i, e), hie_mem, rfl⟩
      have hpi : p.1 ≠ i := fun h => hnd.1 (h ▸ hi_mem)
      have ihr := ih hnd.2 hfind
      have hmem : p.1 ∉ i :: consumed ↔ p.1 ∉ consumed := by
        simp [List.mem_cons, hpi]
      rw [filtPool_cons, filtPool_cons]
      by_cases h12 : p.1 ∉ consumed ∧ eventKey p.2 = k
      · have h3 : ¬ ts < p.2.ts := by
          intro h3
          rw [(specCand_iff _ _ _ _).mpr ⟨h12.1, h12.2, h3⟩] at hc
          cases hc
        rw [if_pos h12, if_pos ⟨hmem.mpr h12.1, h12.2⟩]
        simp only [removeFirstAfter, if_neg h3]
        rw [ihr]
      · rw [if_neg h12, if_neg (fun h => h12 ⟨hmem.mp h.1, h.2⟩)]
        exact ihr

/-- The mutable-pool matching loop agrees with the consumed-tag
specification whenever the pools are the per-key views of the tagged end
list. -/
theorem matchBegins_eq_specLoop :
    ∀ (begins : List RawEvent) (ends : List (Nat × RawEvent))
      (pools : (Nat × Nat × Nat) → List RawEvent) (consumed : List Nat),
      (ends.map Prod.fst).Nodup →
      (∀ k, pools k = filtPool ends consumed k) →
      matchBegins begins pools = specLoop ends begins consumed := by
  intro begins
  induction begins with
  | nil => intro ends pools consumed _ _; simp [matchBegins, specLoop]
  | cons b rest ih =>
    intro ends pools consumed hnd hinv
    have hfirst : findFirstAfter b.ts (pools (eventKey b)) =
        (ends.find? (specCand consumed (eventKey b) b.ts)).map Prod.snd := by
      rw [hinv (eventKey b)]
      exact findFirstAfter_filtPool ends consumed (eventKey b) b.ts
    unfold matchBegins specLoop
    cases hfind : ends.find? (specCand consumed (eventKey b) b.ts) with
    | none =>
      rw [hfind] at hfirst
      simp only [Option.map_none'] at hfirst
      rw [hfirst]
      exact ih ends pools consumed hnd hinv
    | some p =>
      rw [hfind] at hfirst
      simp only [Option.map_some'] at hfirst
      rw [hfirst]
      have hcand : specCand consumed (eventKey b) b.ts p = true :=
        List.find?_some hfind
      simp only [specCand, Bool.and_eq_true, decide_eq_true_eq] at hcand
      have hpk : eventKey p.2 = eventKey b := hcand.1.2
      have hp_mem : p ∈ ends := List.mem_of_find?_eq_some hfind
      have hinv' : ∀ k,
          (if k = eventKey b then removeFirstAfter b.ts (pools (eventKey b))
           else pools k) = filtPool ends (p.1 :: consumed) k := by
        intro k
        by_cases hk : k = eventKey b
        · rw [if_pos hk, hinv (eventKey b), hk]
          exact removeFirstAfter_filtPool ends consumed (eventKey b) b.ts p.1
            p.2 hnd (by rw [← hfind])
        · rw [if_neg hk, hinv k]
          exact (filtPool_consume_otherkey ends consumed p.1 (eventKey b) k
            (fun q hq hqi =>
              (nodup_fst_inj hnd hq hp_mem hqi) ▸ hpk) hk).symm
      exact congrArg _ (ih ends _ (p.1 :: consumed) hnd hinv')

/-- C1 (amended): for every input trace, the event matcher pairs each
begin-marker (phase `b`, category and name `Source`, non-empty detail) with
the *first in input order* among the not-yet-consumed end-markers of the same
(pid, tid, id) key whose timestamp is strictly greater than the begin's; the
matched end-marker is consumed and cannot be reused by a later begin with the
same key, and a begin-marker with no such candidate produces no interval. -/
theorem matcher_eq_first_in_order_spec (events : List RawEvent) :
    extractIntervals events = specFirstExtract events := by
  unfold extractIntervals specFirstExtract
  apply matchBegins_eq_specLoop
  · exact tagFrom_fst_nodup 0 (endEvents events)
  · intro k
    unfold filtPool
    have hcongr : (tag (endEvents events)).filter
        (fun p => decide (p.1 ∉ ([] : List Nat)) && decide (eventKey p.2 = k)) =
        (tag (endEvents events)).filter (fun p => decide (eventKey p.2 = k)) := by
      apply List.filter_congr
      intro p _
      simp
    rw [hcongr]
    exact (tagFrom_filter_map_snd (fun e => decide (eventKey e = k)) 0
      (endEvents events)).symm

/-! ### Stable sorting

`Array.prototype.sort` in Node (V8) is stable; both tools only sort with
three-way comparators of the form `(a, b) => key(a) - key(b)`.  A stable
sort by an integer key is uniquely determined, so this stable insertion sort
is an exact model of those calls. -/

/-- Insert `a` before the first element `b` with `le a b`. -/
def insertByLe {α : Type} (le : α → α → Bool) (a : α) : List α → List α
  | [] => [a]
  | b :: r => if le a b then a :: b :: r else b :: insertByLe le a r

/-- Stable insertion sort by `le`. -/
def sortByLe {α : Type} (le : α → α → Bool) : List α → List α
  | [] => []
  | a :: r => insertByLe le a (sortByLe le r)

theorem insertByLe_perm {α : Type} (le : α → α → Bool) (a : α) :
    ∀ (l : List α), (insertByLe le a l).Perm (a :: l) := by
  intro l
  induction l with
  | nil => simp [insertByLe]
  | cons b r ih =>
    by_cases h : le a b = true
    · simp [insertByLe, h]
    · simp only [insertByLe, if_neg h]
      exact (ih.cons b).trans (List.Perm.swap a b r)

theorem sortByLe_perm {α : Type} (le : α → α → Bool) :
    ∀ (l : List α), (sortByLe le l).Perm l := by
  intro l
  induction l with
  | nil => simp [sortByLe]
  | cons a r ih =>
    exact (insertByLe_perm le a (sortByLe le r)).trans (ih.cons a)

theorem mem_insertByLe {α : Type} (le : α → α → Bool) (a x : α) (l : List α) :
    x ∈ insertByLe le a l ↔ x = a ∨ x ∈ l :=
  ⟨fun h => by
      rcases List.mem_cons.mp ((insertByLe_perm le a l).mem_iff.mp h) with h | h
      · exact Or.inl h
      · exact Or.inr h,
    fun h => by
      rcases h with h | h
      · exact (insertByLe_perm le a l).mem_iff.mpr (h ▸ List.mem_cons_self _ _)
      · exact (insertByLe_perm le a l).mem_iff.mpr (List.mem_cons_of_mem _ h)⟩

theorem insertByLe_pairwise {α : Type} (le : α → α → Bool)
    (htot : ∀ x y, le x y = true ∨ le y x = true)
    (htrans : ∀ x y z, le x y = true → le y z = true → le x z = true)
    (a : α) :
    ∀ (l : List α), l.Pairwise (fun x y => le x y = true) →
      (insertByLe le a l).Pairwise (fun x y => le x y = true) := by
  intro l
  induction l with
  | nil => intro _; simp [insertByLe]
  | cons b r ih =>
    intro hp
    rcases List.pairwise_cons.mp hp with ⟨hb, hr⟩
    by_cases h : le a b = true
    · simp only [insertByLe, if_pos h]
      refine List.pairwise_cons.mpr ⟨?_, hp⟩
      intro x hx
      rcases List.mem_cons.mp hx with hxb | hxr
      · exact hxb ▸ h
      · exact htrans a b x h (hb x hxr)
    · simp only [insertByLe, if_neg h]
      refine List.pairwise_cons.mpr ⟨?_, ih hr⟩
      intro x hx
      rcases (mem_insertByLe le a x r).mp hx with hxa | hxr
      · rw [hxa]
        rcases htot a b with hab | hba
        · exact absurd hab h
        · exact hba
      · exact hb x hxr

theorem sortByLe_pairwise {α : Type} (le : α → α → Bool)
    (htot : ∀ x y, le x y = true ∨ le y x = true)
    (htrans : ∀ x y z, le x y = true → le y z = true → le x z = true) :
    ∀ (l : List α),
      (sortByLe le l).Pairwise (fun x y => le x y = true) := by
  intro l
  induction l with
  | nil => simp [sortByLe]
  | cons a r ih => exact insertByLe_pairwise le htot htrans a _ ih

/-! ### Profiler per-unit processing: hierarchy chains and self-time -/

/-- `a` contains `b`: `a.startTime <= b.startTime && a.endTime >= b.endTime`
(the containment test both tools use). -/
def containsIv (a b : Interval) : Bool :=
  decide (a.startTime ≤ b.startTime) && decide (b.endTime ≤ a.endTime)

/-- The comparator `(a, b) => a.startTime - b.startTime` as a `le` test. -/
def leStart (a b : Nat × Interval) : Bool :=
  decide (a.2.startTime ≤ b.2.startTime)

/-- The include chain built for interval `p` by the profiler tool: every
other interval of the unit that contains `p`, sorted by start time ascending
(outermost first), with `p` itself pushed last as the leaf. -/
def markerChain (l : List (Nat × Interval)) (p : Nat × Interval) :
    List (Nat × Interval) :=
  sortByLe leStart
      (l.filter (fun o => decide (o.1 ≠ p.1) && containsIv o.2 p.2)) ++ [p]

/-- `o` is a direct child of `p` within the unit `l`: a distinct interval
contained in `p` with no intermediate container between `p` and `o` (the
inner `middle` loop of the self-time pass). -/
def isDirectChild (l : List (Nat × Interval)) (p o : Nat × Interval) : Bool :=
  decide (o.1 ≠ p.1) && containsIv p.2 o.2 &&
    !(l.any (fun m => decide (m.1 ≠ p.1) && decide (m.1 ≠ o.1) &&
        containsIv p.2 m.2 && containsIv m.2 o.2))

/-- `childrenTime`: summed duration of the direct children of `p`. -/
def childrenTime (l : List (Nat × Interval)) (p : Nat × Interval) : Int :=
  ((l.filter (isDirectChild l p)).map (fun o => o.2.duration)).sum

/-- `selfTime = interval.duration - childrenTime`. -/
def selfTime (l : List (Nat × Interval)) (p : Nat × Interval) : Int :=
  p.2.duration - childrenTime l p

/-- One profiler source marker: `{file, startTime, endTime, duration, stack}`
where `duration` holds the self-time and `stack` the chain of file names. -/
structure SourceMarker where
  file : String
  startTime : Int
  endTime : Int
  duration : Int
  stack : List String
  deriving DecidableEq, Repr

/-- The marker-building loop of the profiler's `extractSourceMarkers`. -/
def processIntervals (ivs : List Interval) : List SourceMarker :=
  (tag ivs).map (fun p =>
    { file := p.2.file
      startTime := p.2.startTime
      endTime := p.2.endTime
      duration := selfTime (tag ivs) p
      stack := (markerChain (tag ivs) p).map (fun o => o.2.file) })

/-- The profiler's `extractSourceMarkers`, end to end. -/
def extractSourceMarkers (events : List RawEvent) : List SourceMarker :=
  processIntervals (extractIntervals events)

/-- The claim's wording of "direct child": any other interval `q` with
`p.start ≤ q.start` and `p.end ≥ q.end` such that no third interval `m`
(distinct from `p` and `q`, also contained by `p`) contains `q`. -/
def specDirectChild (l : List (Nat × Interval)) (p q : Nat × Interval) : Prop :=
  q.1 ≠ p.1 ∧ p.2.startTime ≤ q.2.startTime ∧ p.2.endTime ≥ q.2.endTime ∧
    ∀ m ∈ l, m.1 ≠ p.1 → m.1 ≠ q.1 →
      p.2.startTime ≤ m.2.startTime → p.2.endTime ≥ m.2.endTime →
      ¬(m.2.startTime ≤ q.2.startTime ∧ m.2.endTime ≥ q.2.endTime)

instance (l : List (Nat × Interval)) (p q : Nat × Interval) :
    Decidable (specDirectChild l p q) := by
  unfold specDirectChild
  infer_instance

theorem isDirectChild_iff (l : List (Nat × Interval)) (p q : Nat × Interval) :
    isDirectChild l p q = true ↔ specDirectChild l p q := by
  unfold isDirectChild specDirectChild
  constructor
  · intro h
    rw [Bool.and_eq_true, Bool.and_eq_true] at h
    obtain ⟨⟨hq, hcont⟩, hany⟩ := h
    rw [Bool.not_eq_true', List.any_eq_false] at hany
    rw [decide_eq_true_eq] at hq
    rw [containsIv, Bool.and_eq_true, decide_eq_true_eq,
      decide_eq_true_eq] at hcont
    refine ⟨hq, hcont.1, hcont.2, ?_⟩
    intro m hm hm1 hm2 hm3 hm4 hc
    have hfalse := hany m hm
    have htrue : (decide (m.1 ≠ p.1) && decide (m.1 ≠ q.1) &&
        containsIv p.2 m.2 && containsIv m.2 q.2) = true := by
      rw [Bool.and_eq_true, Bool.and_eq_true, Bool.and_eq_true]
      refine ⟨⟨⟨decide_eq_true hm1, decide_eq_true hm2⟩, ?_⟩, ?_⟩
      · rw [containsIv, Bool.and_eq_true]
        exact ⟨decide_eq_true hm3, decide_eq_true hm4⟩
      · rw [containsIv, Bool.and_eq_true]
        exact ⟨decide_eq_true hc.1, decide_eq_true hc.2⟩
    exact hfalse htrue
  · intro h
    obtain ⟨hq, h2, h3, h4⟩ := h
    rw [Bool.and_eq_true, Bool.and_eq_true]
    refine ⟨⟨decide_eq_true hq, ?_⟩, ?_⟩
    · rw [containsIv, Bool.and_eq_true]
      exact ⟨decide_eq_true h2, decide_eq_true h3⟩
    · rw [Bool.not_eq_true', List.any_eq_false]
      intro m hm hbad
      rw [Bool.and_eq_true, Bool.and_eq_true, Bool.and_eq_true] at hbad
      obtain ⟨⟨⟨hx1, hx2⟩, hx3⟩, hx4⟩ := hbad
      rw [decide_eq_true_eq] at hx1 hx2
      rw [containsIv, Bool.and_eq_true, decide_eq_true_eq,
        decide_eq_true_eq] at hx3 hx4
      exact h4 m hm hx1 hx2 hx3.1 hx3.2 ⟨hx4.1, hx4.2⟩

theorem isDirectChild_eq_spec (l : List (Nat × Interval))
    (p q : Nat × Interval) :
    isDirectChild l p q = decide (specDirectChild l p q) := by
  by_cases h : specDirectChild l p q
  · rw [decide_eq_true h]
    exact (isDirectChild_iff l p q).mpr h
  · rw [decide_eq_false h]
    cases hx : isDirectChild l p q with
    | false => rfl
    | true => exact absurd ((isDirectChild_iff l p q).mp hx) h

/-- The two-interval unit of the claim's scenario: outer `[0,100]`, inner
`[10,40]`. -/
def c2Unit : List Interval :=
  [⟨"outer", 0, 100, 100⟩, ⟨"inner", 10, 40, 30⟩]

/-- C2: for every unit and every interval of the unit, the computed
self-duration is the interval's total duration minus the summed durations of
exactly its direct children, in the claim's sense of "direct child"; and on
the scenario unit (outer `[0,100]`, inner `[10,40]`) the self-durations are
70 and 30. -/
theorem self_duration_eq_duration_sub_direct_children :
    (∀ (l : List Interval) (p : Nat × Interval),
      selfTime (tag l) p = p.2.duration -
        (((tag l).filter (fun q => decide (specDirectChild (tag l) p q))).map
            (fun q => q.2.duration)).sum) ∧
      (processIntervals c2Unit).map SourceMarker.duration = [70, 30] := by
  constructor
  · intro l p
    unfold selfTime childrenTime
    have hfe : (tag l).filter (isDirectChild (tag l) p) =
        (tag l).filter (fun q => decide (specDirectChild (tag l) p q)) := by
      apply List.filter_congr
      intro q _
      exact isDirectChild_eq_spec (tag l) p q
    rw [hfe]
  · decide

/-- C4: for every unit and every interval `p` of the unit, the emitted chain
consists of exactly the other intervals of the unit that contain `p`
(multiset equality), is sorted by start time ascending, and ends with `p`
itself as the leaf; the marker's `stack` field is exactly that chain's file
names. -/
theorem full_ancestor_chain_spec (l : List Interval) (p : Nat × Interval) :
    ((markerChain (tag l) p).dropLast).Perm
        ((tag l).filter (fun o => decide (o.1 ≠ p.1) && containsIv o.2 p.2)) ∧
      (markerChain (tag l) p).Pairwise
        (fun a b => a.2.startTime ≤ b.2.startTime) ∧
      (markerChain (tag l) p).getLast? = some p ∧
      (processIntervals l).map SourceMarker.stack =
        (tag l).map (fun q => (markerChain (tag l) q).map (fun o => o.2.file)) := by
  have htot : ∀ x y : Nat × Interval, leStart x y = true ∨ leStart y x = true := by
    intro x y
    simp only [leStart, decide_eq_true_eq]
    omega
  have htrans : ∀ x y z : Nat × Interval,
      leStart x y = true → leStart y z = true → leStart x z = true := by
    intro x y z
    simp only [leStart, decide_eq_true_eq]
    omega
  refine ⟨?_, ?_, ?_, ?_⟩
  · rw [markerChain, List.dropLast_concat]
    exact sortByLe_perm _ _
  · rw [markerChain]
    rw [List.pairwise_append]
    refine ⟨?_, List.pairwise_singleton _ _, ?_⟩
    · have := sortByLe_pairwise leStart htot htrans
        ((tag l).filter (fun o => decide (o.1 ≠ p.1) && containsIv o.2 p.2))
      exact this.imp (fun h => by
        simpa [leStart] using h)
    · intro a ha b hb
      have ha' : a ∈ (tag l).filter
          (fun o => decide (o.1 ≠ p.1) && containsIv o.2 p.2) :=
        (sortByLe_perm leStart _).mem_iff.mp ha
      have hc : containsIv a.2 p.2 = true := by
        have := List.of_mem_filter ha'
        simp only [Bool.and_eq_true] at this
        exact this.2
      have hb' : b = p := List.mem_singleton.mp hb
      subst hb'
      simp only [containsIv, Bool.and_eq_true, decide_eq_true_eq] at hc
      exact hc.1
  · rw [markerChain]
    exact List.getLast?_concat _
  · simp [processIntervals, List.map_map]

/-! ### Self-time conservation (C3) -/

/-- `p` is a root of the unit `l`: no other interval of the unit contains
it. -/
def isRootIn (l : List (Nat × Interval)) (p : Nat × Interval) : Bool :=
  !(l.any (fun o => decide (o.1 ≠ p.1) && containsIv o.2 p.2))

/-- The unit's intervals are pairwise laminar: distinct intervals are nested
one way or the other, or disjoint. -/
def laminarB (l : List (Nat × Interval)) : Bool :=
  l.all (fun p => l.all (fun q =>
    decide (p.1 = q.1) || containsIv p.2 q.2 || containsIv q.2 p.2 ||
      decide (p.2.endTime ≤ q.2.startTime) ||
      decide (q.2.endTime ≤ p.2.startTime)))

theorem containsIv_le {a b : Interval} (h : containsIv a b = true) :
    a.startTime ≤ b.startTime ∧ b.endTime ≤ a.endTime := by
  rw [containsIv, Bool.and_eq_true, decide_eq_true_eq, decide_eq_true_eq] at h
  exact h

theorem laminarB_cases {l : List (Nat × Interval)} (h : laminarB l = true)
    {p q : Nat × Interval} (hp : p ∈ l) (hq : q ∈ l) :
    p.1 = q.1 ∨ containsIv p.2 q.2 = true ∨ containsIv q.2 p.2 = true ∨
      p.2.endTime ≤ q.2.startTime ∨ q.2.endTime ≤ p.2.startTime := by
  rw [laminarB, List.all_eq_true] at h
  have h1 := h p hp
  rw [List.all_eq_true] at h1
  have h2 := h1 q hq
  simp only [Bool.or_eq_true, decide_eq_true_eq] at h2
  tauto

theorem isRootIn_false (l : List (Nat × Interval)) (q : Nat × Interval)
    (h : isRootIn l q = false) :
    ∃ o ∈ l, o.1 ≠ q.1 ∧ containsIv o.2 q.2 = true := by
  rw [isRootIn, Bool.not_eq_false', List.any_eq_true] at h
  obtain ⟨o, ho, hoc⟩ := h
  rw [Bool.and_eq_true, decide_eq_true_eq] at hoc
  exact ⟨o, ho, hoc.1, hoc.2⟩

theorem isRootIn_true (l : List (Nat × Interval)) (q : Nat × Interval)
    (h : isRootIn l q = true) :
    ∀ o ∈ l, o.1 ≠ q.1 → ¬ containsIv o.2 q.2 = true := by
  rw [isRootIn, Bool.not_eq_true', List.any_eq_false] at h
  intro o ho hne hc
  exact h o ho (by rw [Bool.and_eq_true]; exact ⟨decide_eq_true hne, hc⟩)

/-- Every nonempty list of tagged intervals has a member of minimal
duration. -/
theorem exists_min_duration :
    ∀ (c : List (Nat × Interval)), c ≠ [] →
      ∃ m ∈ c, ∀ x ∈ c, m.2.duration ≤ x.2.duration := by
  intro c
  induction c with
  | nil => intro h; exact absurd rfl h
  | cons a r ih =>
    intro _
    by_cases hr : r = []
    · refine ⟨a, List.mem_cons_self _ _, ?_⟩
      intro x hx
      rw [hr] at hx
      rw [List.mem_singleton.mp hx]
    · obtain ⟨m, hm, hmin⟩ := ih hr
      by_cases hd : a.2.duration ≤ m.2.duration
      · refine ⟨a, List.mem_cons_self _ _, ?_⟩
        intro x hx
        rcases List.mem_cons.mp hx with hxa | hxr
        · rw [hxa]
        · exact le_trans hd (hmin x hxr)
      · refine ⟨m, List.mem_cons_of_mem _ hm, ?_⟩
        intro x hx
        rcases List.mem_cons.mp hx with hxa | hxr
        · rw [hxa]; omega
        · exact hmin x hxr

/-- The unit of the C3 counterexample: one enclosing interval and three
identical copies of a contained span, as produced for a trace with three
same-timestamp begin/end pairs under three distinct keys. -/
def c3Unit : List Interval :=
  [⟨"root.h", 0, 100, 100⟩, ⟨"b.h", 0, 50, 50⟩, ⟨"c.h", 0, 50, 50⟩,
    ⟨"d.h", 0, 50, 50⟩]

/-- C3 (counterexample): a unit whose intervals are pairwise laminar
(every two are nested or disjoint), have consistent positive durations, and
have exactly one root, for which the self-durations sum to 250 while the
root's total duration is 100.  The three identical copies of `[0,50]`
mutually shadow each other out of every direct-children set, so none of
their durations is ever subtracted. -/
theorem c3_counterexample :
    laminarB (tag c3Unit) = true ∧
      (tag c3Unit).filter (isRootIn (tag c3Unit)) =
        [(0, ⟨"root.h", 0, 100, 100⟩)] ∧
      (∀ p ∈ tag c3Unit,
        p.2.duration = p.2.endTime - p.2.startTime ∧
          p.2.startTime ≤ p.2.endTime) ∧
      ((processIntervals c3Unit).map SourceMarker.duration).sum = 250 ∧
      ((0, (⟨"root.h", 0, 100, 100⟩ : Interval)) : Nat × Interval).2.duration =
        100 := by
  refine ⟨by decide, by decide, by decide, by decide, by decide⟩

/-- The unique-direct-parent counting step: summing a non-root interval's
duration over all intervals that have it as a direct child yields the
duration exactly once (and a root's duration is never counted). -/
theorem sum_ite_direct_parent (L : List (Nat × Interval))
    (hndfst : (L.map Prod.fst).Nodup)
    (hwf : ∀ p ∈ L, p.2.duration = p.2.endTime - p.2.startTime ∧
      p.2.startTime ≤ p.2.endTime)
    (hdist : ∀ p ∈ L, ∀ q ∈ L, p.1 ≠ q.1 →
      (p.2.startTime, p.2.endTime) ≠ (q.2.startTime, q.2.endTime))
    (hlam : laminarB L = true)
    (q : Nat × Interval) (hq : q ∈ L) :
    ∑ p in L.toFinset,
        (if isDirectChild L p q = true then q.2.duration else 0) =
      if isRootIn L q = true then 0 else q.2.duration := by
  cases hr : isRootIn L q with
  | true =>
    simp only [if_pos rfl]
    apply Finset.sum_eq_zero
    intro p hp
    rw [if_neg]
    intro hdc
    obtain ⟨hq1, h2, h3, _⟩ := (isDirectChild_iff L p q).mp hdc
    refine isRootIn_true L q hr p (List.mem_toFinset.mp hp) (Ne.symm hq1) ?_
    rw [containsIv, Bool.and_eq_true]
    exact ⟨decide_eq_true h2, decide_eq_true h3⟩
  | false =>
    simp only [Bool.false_eq_true, if_false]
    by_cases hdq : q.2.duration = 0
    · rw [hdq]
      apply Finset.sum_eq_zero
      intro p _
      simp
    · obtain ⟨o, ho, hone, hocont⟩ := isRootIn_false L q hr
      have hoC : o ∈ L.filter
          (fun o => decide (o.1 ≠ q.1) && containsIv o.2 q.2) := by
        refine List.mem_filter.mpr ⟨ho, ?_⟩
        rw [Bool.and_eq_true]
        exact ⟨decide_eq_true hone, hocont⟩
      have hCne : L.filter
          (fun o => decide (o.1 ≠ q.1) && containsIv o.2 q.2) ≠ [] := by
        intro hempty
        rw [hempty] at hoC
        exact absurd hoC (List.not_mem_nil o)
      obtain ⟨m, hmC, hmin⟩ := exists_min_duration _ hCne
      have hmL : m ∈ L := (List.mem_filter.mp hmC).1
      have hmprop := (List.mem_filter.mp hmC).2
      rw [Bool.and_eq_true, decide_eq_true_eq] at hmprop
      obtain ⟨hm1, hm2⟩ := hmprop
      have hdcm : isDirectChild L m q = true := by
        apply (isDirectChild_iff L m q).mpr
        obtain ⟨hs1, hs2⟩ := containsIv_le hm2
        refine ⟨fun h => hm1 h.symm, hs1, hs2, ?_⟩
        intro x hx hx1 hx2 hx3 hx4 hcx
        have hxC : x ∈ L.filter
            (fun o => decide (o.1 ≠ q.1) && containsIv o.2 q.2) := by
          refine List.mem_filter.mpr ⟨hx, ?_⟩
          rw [Bool.and_eq_true]
          refine ⟨decide_eq_true hx2, ?_⟩
          rw [containsIv, Bool.and_eq_true]
          exact ⟨decide_eq_true hcx.1, decide_eq_true hcx.2⟩
        have hmin_x := hmin x hxC
        have hspan := hdist x hx m hmL hx1
        have hdx := (hwf x hx).1
        have hdm := (hwf m hmL).1
        have hne' : x.2.startTime ≠ m.2.startTime ∨
            x.2.endTime ≠ m.2.endTime := by
          by_contra hno
          push_neg at hno
          exact hspan (by rw [hno.1, hno.2])
        have hlt : x.2.duration < m.2.duration := by
          rw [hdx, hdm]
          rcases hne' with hne' | hne' <;> omega
        omega
      have huniq : ∀ p ∈ L.toFinset, isDirectChild L p q = true → p = m := by
        intro p hp hdcp
        by_contra hpm
        have hpL : p ∈ L := List.mem_toFinset.mp hp
        have hfst : p.1 ≠ m.1 := fun h => hpm (nodup_fst_inj hndfst hpL hmL h)
        obtain ⟨hp1, hp2, hp3, hp4⟩ := (isDirectChild_iff L p q).mp hdcp
        obtain ⟨hm1', hm2', hm3', hm4⟩ := (isDirectChild_iff L m q).mp hdcm
        have hq' := hwf q hq
        have hqlt : q.2.startTime < q.2.endTime := by
          obtain ⟨ha, hb⟩ := hq'
          omega
        rcases laminarB_cases hlam hpL hmL with hcase | hcase | hcase |
          hcase | hcase
        · exact hfst hcase
        · obtain ⟨ha, hb⟩ := containsIv_le hcase
          exact hp4 m hmL (Ne.symm hfst) hm1 ha hb ⟨hm2', hm3'⟩
        · obtain ⟨ha, hb⟩ := containsIv_le hcase
          exact hm4 p hpL hfst (Ne.symm hp1) ha hb ⟨hp2, hp3⟩
        · omega
        · omega
      have hfilter : L.toFinset.filter
          (fun p => isDirectChild L p q = true) = {m} := by
        apply Finset.eq_singleton_iff_unique_mem.mpr
        constructor
        · exact Finset.mem_filter.mpr ⟨List.mem_toFinset.mpr hmL, hdcm⟩
        · intro p hp
          obtain ⟨hp1, hp2⟩ := Finset.mem_filter.mp hp
          exact huniq p hp1 hp2
      rw [← Finset.sum_filter, hfilter, Finset.sum_singleton]

/-- C3 (amended): for every unit whose intervals have consistent durations,
pairwise distinct spans, pairwise laminar containment, and exactly one root
interval, the self-durations of all intervals sum to the root's total
duration. -/
theorem unit_selftimes_sum_eq_root_duration (l : List Interval)
    (hwf : ∀ p ∈ tag l, p.2.duration = p.2.endTime - p.2.startTime ∧
      p.2.startTime ≤ p.2.endTime)
    (hdist : ∀ p ∈ tag l, ∀ q ∈ tag l, p.1 ≠ q.1 →
      (p.2.startTime, p.2.endTime) ≠ (q.2.startTime, q.2.endTime))
    (hlam : laminarB (tag l) = true)
    (r : Nat × Interval)
    (hroot : (tag l).filter (isRootIn (tag l)) = [r]) :
    ((processIntervals l).map SourceMarker.duration).sum = r.2.duration := by
  have hndfst : ((tag l).map Prod.fst).Nodup := tagFrom_fst_nodup 0 l
  have hnd : (tag l).Nodup := hndfst.of_map
  have hmap : (processIntervals l).map SourceMarker.duration =
      (tag l).map (fun p => selfTime (tag l) p) := by
    simp [processIntervals, List.map_map, Function.comp]
  rw [hmap, ← List.sum_toFinset _ hnd]
  have hself : ∀ p, selfTime (tag l) p = p.2.duration -
      ∑ qq in (tag l).toFinset,
        (if isDirectChild (tag l) p qq = true then qq.2.duration else 0) := by
    intro p
    rw [selfTime, childrenTime]
    congr 1
    rw [← List.sum_toFinset _ (hnd.filter _), List.toFinset_filter,
      Finset.sum_filter]
  calc ∑ p in (tag l).toFinset, selfTime (tag l) p
      = ∑ p in (tag l).toFinset, (p.2.duration -
          ∑ qq in (tag l).toFinset,
            (if isDirectChild (tag l) p qq = true then qq.2.duration
             else 0)) := by
        apply Finset.sum_congr rfl
        intro p _
        exact hself p
    _ = ∑ p in (tag l).toFinset, p.2.duration -
          ∑ p in (tag l).toFinset, ∑ qq in (tag l).toFinset,
            (if isDirectChild (tag l) p qq = true then qq.2.duration
             else 0) :=
        Finset.sum_sub_distrib
    _ = ∑ p in (tag l).toFinset, p.2.duration -
          ∑ qq in (tag l).toFinset, ∑ p in (tag l).toFinset,
            (if isDirectChild (tag l) p qq = true then qq.2.duration
             else 0) := by
        rw [Finset.sum_comm]
    _ = ∑ p in (tag l).toFinset, p.2.duration -
          ∑ qq in (tag l).toFinset,
            (if isRootIn (tag l) qq = true then 0 else qq.2.duration) := by
        congr 1
        apply Finset.sum_congr rfl
        intro qq hqq
        exact sum_ite_direct_parent (tag l) hndfst hwf hdist hlam qq
          (List.mem_toFinset.mp hqq)
    _ = ∑ qq in (tag l).toFinset, (qq.2.duration -
          if isRootIn (tag l) qq = true then 0 else qq.2.duration) :=
        Finset.sum_sub_distrib.symm
    _ = ∑ qq in (tag l).toFinset,
          (if isRootIn (tag l) qq = true then qq.2.duration else 0) := by
        apply Finset.sum_congr rfl
        intro qq _
        by_cases h : isRootIn (tag l) qq = true
        · simp [h]
        · simp [h]
    _ = ∑ qq in (tag l).toFinset.filter
          (fun qq => isRootIn (tag l) qq = true), qq.2.duration :=
        (Finset.sum_filter _ _).symm
    _ = (((tag l).filter (isRootIn (tag l))).map
          (fun p => p.2.duration)).sum := by
        rw [← List.toFinset_filter, List.sum_toFinset _ (hnd.filter _)]
    _ = r.2.duration := by
        rw [hroot]
        simp

/-- The two-interval unit used to run the amended C3 statement. -/
def c3Witness : List Interval :=
  [⟨"outer", 0, 100, 100⟩, ⟨"inner", 10, 40, 30⟩]

theorem unit_selftimes_sum_eq_root_duration_witness :
    ((∀ p ∈ tag c3Witness,
        p.2.duration = p.2.endTime - p.2.startTime ∧
          p.2.startTime ≤ p.2.endTime) ∧
      (∀ p ∈ tag c3Witness, ∀ q ∈ tag c3Witness, p.1 ≠ q.1 →
        (p.2.startTime, p.2.endTime) ≠ (q.2.startTime, q.2.endTime)) ∧
      laminarB (tag c3Witness) = true ∧
      (tag c3Witness).filter (isRootIn (tag c3Witness)) =
        [(0, ⟨"outer", 0, 100, 100⟩)]) ∧
    ((processIntervals c3Witness).map SourceMarker.duration).sum =
      ((0, (⟨"outer", 0, 100, 100⟩ : Interval)) : Nat × Interval).2.duration := by
  refine ⟨⟨by decide, by decide, by decide, by decide⟩, ?_⟩
  exact unit_selftimes_sum_eq_root_duration c3Witness (by decide) (by decide)
    (by decide) (0, ⟨"outer", 0, 100, 100⟩) (by decide)

/-! ### Dashboard nearest-parent hierarchy (C5) -/

/-- One entry of the dashboard's per-unit include list:
`{file, startTime, endTime, duration, parentFile}`. -/
structure HierEntry where
  file : String
  startTime : Int
  endTime : Int
  duration : Int
  parentFile : Option String
  deriving DecidableEq, Repr

/-- `o` is a container candidate for `p`: a different interval with
`o.startTime <= p.startTime && o.endTime >= p.endTime`. -/
def candB (p o : Nat × Interval) : Bool :=
  decide (o.1 ≠ p.1) && containsIv o.2 p.2

/-- One step of the immediate-parent scan of `buildIncludeHierarchy`: adopt
`o` when it contains the interval and its duration is strictly below the
best so far (`smallestParentDuration` starts at `Infinity`, so the first
container is always adopted). -/
def stepParent (p : Nat × Interval) (best : Option (Nat × Interval))
    (o : Nat × Interval) : Option (Nat × Interval) :=
  if (candB p o &&
      match best with
      | none => true
      | some b => decide (o.2.duration < b.2.duration)) = true
  then some o else best

/-- The inner loop of `buildIncludeHierarchy`: running minimum-duration
container. -/
def findImmediateParent (l : List (Nat × Interval)) (p : Nat × Interval) :
    Option (Nat × Interval) :=
  l.foldl (stepParent p) none

/-- One output entry of `buildIncludeHierarchy`. -/
def hierEntry (l : List (Nat × Interval)) (p : Nat × Interval) : HierEntry :=
  { file := p.2.file
    startTime := p.2.startTime
    endTime := p.2.endTime
    duration := p.2.duration
    parentFile := (findImmediateParent l p).map (fun q => q.2.file) }

/-- `buildIncludeHierarchy` of the dashboard tool. -/
def buildIncludeHierarchy (ivs : List Interval) : List HierEntry :=
  (tag ivs).map (hierEntry (tag ivs))

/-- JavaScript truthiness of `inc.parentFile ? fileToId.get(inc.parentFile)
: -1` in the dashboard serializer: `null` and the empty string are falsy and
serialize as the `-1` sentinel. -/
def parentFileId (fileToId : String → Int) (pf : Option String) : Int :=
  match pf with
  | some f => if f = "" then -1 else fileToId f
  | none => -1

theorem foldl_stepParent_some (p : Nat × Interval) :
    ∀ (l : List (Nat × Interval)) (b : Nat × Interval),
      ∃ q, l.foldl (stepParent p) (some b) = some q ∧
        (q = b ∨ (q ∈ l ∧ candB p q = true ∧
          q.2.duration < b.2.duration)) ∧
        (∀ o ∈ l, candB p o = true → q.2.duration ≤ o.2.duration) ∧
        q.2.duration ≤ b.2.duration := by
  intro l
  induction l with
  | nil =>
    intro b
    refine ⟨b, rfl, Or.inl rfl, ?_, le_refl _⟩
    intro o ho
    exact absurd ho (List.not_mem_nil o)
  | cons o rest ih =>
    intro b
    by_cases hcond : candB p o = true ∧ o.2.duration < b.2.duration
    · have hstep : stepParent p (some b) o = some o := by
        rw [stepParent, if_pos]
        rw [Bool.and_eq_true]
        exact ⟨hcond.1, decide_eq_true hcond.2⟩
      obtain ⟨q, hfold, hor, hall, hle⟩ := ih o
      refine ⟨q, ?_, ?_, ?_, ?_⟩
      · rw [List.foldl_cons, hstep]
        exact hfold
      · rcases hor with hq | ⟨hqm, hqc, hqd⟩
        · exact Or.inr ⟨hq ▸ List.mem_cons_self _ _, hq ▸ hcond.1,
            hq ▸ hcond.2⟩
        · exact Or.inr ⟨List.mem_cons_of_mem _ hqm, hqc,
            lt_trans hqd hcond.2⟩
      · intro o' ho' hc'
        rcases List.mem_cons.mp ho' with ho'o | ho'r
        · rw [ho'o]
          exact hle
        · exact hall o' ho'r hc'
      · exact le_of_lt (lt_of_le_of_lt hle hcond.2)
    · have hstep : stepParent p (some b) o = some b := by
        rw [stepParent, if_neg]
        intro hcc
        rw [Bool.and_eq_true] at hcc
        exact hcond ⟨hcc.1, of_decide_eq_true hcc.2⟩
      obtain ⟨q, hfold, hor, hall, hle⟩ := ih b
      refine ⟨q, ?_, ?_, ?_, hle⟩
      · rw [List.foldl_cons, hstep]
        exact hfold
      · rcases hor with hq | ⟨hqm, hqc, hqd⟩
        · exact Or.inl hq
        · exact Or.inr ⟨List.mem_cons_of_mem _ hqm, hqc, hqd⟩
      · intro o' ho' hc'
        rcases List.mem_cons.mp ho' with ho'o | ho'r
        · have hnlt : ¬ o.2.duration < b.2.duration := by
            intro hlt
            exact hcond ⟨ho'o ▸ hc', hlt⟩
          rw [ho'o]
          omega
        · exact hall o' ho'r hc'

theorem foldl_stepParent_none_char (p : Nat × Interval) :
    ∀ (l : List (Nat × Interval)),
      (l.foldl (stepParent p) none = none → ∀ o ∈ l, ¬ candB p o = true) ∧
      (∀ q, l.foldl (stepParent p) none = some q →
        q ∈ l ∧ candB p q = true ∧
          ∀ o ∈ l, candB p o = true → q.2.duration ≤ o.2.duration) := by
  intro l
  induction l with
  | nil =>
    refine ⟨?_, ?_⟩
    · intro _ o ho
      exact absurd ho (List.not_mem_nil o)
    · intro q hq
      cases hq
  | cons o rest ih =>
    cases hc : candB p o with
    | true =>
      have hstep : stepParent p none o = some o := by
        rw [stepParent, if_pos]
        rw [Bool.and_eq_true]
        exact ⟨hc, rfl⟩
      obtain ⟨q, hfold, hor, hall, hle⟩ := foldl_stepParent_some p rest o
      refine ⟨?_, ?_⟩
      · intro hnone
        rw [List.foldl_cons, hstep, hfold] at hnone
        cases hnone
      · intro q' hq'
        rw [List.foldl_cons, hstep, hfold] at hq'
        have hqq : q' = q := (Option.some.inj hq').symm
        subst hqq
        refine ⟨?_, ?_, ?_⟩
        · rcases hor with hq | ⟨hqm, _, _⟩
          · exact hq ▸ List.mem_cons_self _ _
          · exact List.mem_cons_of_mem _ hqm
        · rcases hor with hq | ⟨_, hqc, _⟩
          · exact hq ▸ hc
          · exact hqc
        · intro o' ho' hc'
          rcases List.mem_cons.mp ho' with ho'o | ho'r
          · rw [ho'o]
            exact hle
          · exact hall o' ho'r hc'
    | false =>
      have hstep : stepParent p none o = none := by
        rw [stepParent, if_neg]
        intro hcc
        rw [Bool.and_eq_true, hc] at hcc
        cases hcc.1
      refine ⟨?_, ?_⟩
      · intro hnone o' ho'
        rcases List.mem_cons.mp ho' with ho'o | ho'r
        · rw [ho'o, hc]
          intro hcc
          cases hcc
        · rw [List.foldl_cons, hstep] at hnone
          exact ih.1 hnone o' ho'r
      · intro q hq
        rw [List.foldl_cons, hstep] at hq
        obtain ⟨hqm, hqc, hall⟩ := ih.2 q hq
        refine ⟨List.mem_cons_of_mem _ hqm, hqc, ?_⟩
        intro o' ho' hc'
        rcases List.mem_cons.mp ho' with ho'o | ho'r
        · rw [ho'o, hc] at hc'
          cases hc'
        · exact hall o' ho'r hc'

/-- C5: in nearest-parent mode, for every interval `p` of a unit, when no
other interval contains `p` the assigned parent is none and serializes as
the `-1` sentinel in `parentFileIds`; and when containers exist, the
assigned parent is a containing interval whose duration is minimal among
all containing intervals. -/
theorem nearest_parent_spec (l : List Interval) (p : Nat × Interval)
    (_hp : p ∈ tag l) (fileToId : String → Int) :
    ((∀ o ∈ tag l, ¬(o.1 ≠ p.1 ∧ containsIv o.2 p.2 = true)) →
        (hierEntry (tag l) p).parentFile = none ∧
          parentFileId fileToId (hierEntry (tag l) p).parentFile = -1) ∧
      ((∃ o ∈ tag l, o.1 ≠ p.1 ∧ containsIv o.2 p.2 = true) →
        ∃ q ∈ tag l, q.1 ≠ p.1 ∧ containsIv q.2 p.2 = true ∧
          (hierEntry (tag l) p).parentFile = some q.2.file ∧
          ∀ o ∈ tag l, o.1 ≠ p.1 → containsIv o.2 p.2 = true →
            q.2.duration ≤ o.2.duration) := by
  have hchar := foldl_stepParent_none_char p (tag l)
  have hcand : ∀ o : Nat × Interval,
      candB p o = true ↔ (o.1 ≠ p.1 ∧ containsIv o.2 p.2 = true) := by
    intro o
    rw [candB, Bool.and_eq_true, decide_eq_true_eq]
  cases hf : findImmediateParent (tag l) p with
  | none =>
    constructor
    · intro _
      constructor
      · show ((findImmediateParent (tag l) p).map (fun q => q.2.file)) = none
        rw [hf]
        rfl
      · show parentFileId fileToId
          ((findImmediateParent (tag l) p).map (fun q => q.2.file)) = -1
        rw [hf]
        rfl
    · intro hex
      obtain ⟨o, ho, h1, h2⟩ := hex
      have := hchar.1 hf o ho
      exact absurd ((hcand o).mpr ⟨h1, h2⟩) this
  | some q =>
    constructor
    · intro hnone
      obtain ⟨hqm, hqc, _⟩ := hchar.2 q hf
      exact absurd ((hcand q).mp hqc) (hnone q hqm)
    · intro _
      obtain ⟨hqm, hqc, hall⟩ := hchar.2 q hf
      obtain ⟨hq1, hq2⟩ := (hcand q).mp hqc
      refine ⟨q, hqm, hq1, hq2, ?_, ?_⟩
      · show ((findImmediateParent (tag l) p).map (fun q => q.2.file)) =
          some q.2.file
        rw [hf]
        rfl
      · intro o ho h1 h2
        exact hall o ho ((hcand o).mpr ⟨h1, h2⟩)

theorem nearest_parent_spec_witness :
    ((1, (⟨"inner", 10, 40, 30⟩ : Interval)) : Nat × Interval) ∈ tag c2Unit ∧
      ∃ q ∈ tag c2Unit,
        q.1 ≠ ((1, (⟨"inner", 10, 40, 30⟩ : Interval)) : Nat × Interval).1 ∧
        containsIv q.2 (⟨"inner", 10, 40, 30⟩ : Interval) = true ∧
        (hierEntry (tag c2Unit) (1, ⟨"inner", 10, 40, 30⟩)).parentFile =
          some q.2.file ∧
        ∀ o ∈ tag c2Unit,
          o.1 ≠ ((1, (⟨"inner", 10, 40, 30⟩ : Interval)) : Nat × Interval).1 →
          containsIv o.2 (⟨"inner", 10, 40, 30⟩ : Interval) = true →
          q.2.duration ≤ o.2.duration := by
  refine ⟨by decide, ?_⟩
  exact (nearest_parent_spec c2Unit (1, ⟨"inner", 10, 40, 30⟩) (by decide)
    (fun _ => 0)).2 (by decide)

/-! ### Merger (C6) -/

/-- `marker.startTime += timeOffset; marker.endTime += timeOffset`. -/
def shiftMarker (off : Int) (m : SourceMarker) : SourceMarker :=
  { m with startTime := m.startTime + off, endTime := m.endTime + off }

/-- The `maxEndTime` scan of `mergeIntoProfile` (accumulator starts at 0). -/
def maxEndTime (markers : List SourceMarker) : Int :=
  markers.foldl (fun acc m => if acc < m.endTime then m.endTime else acc) 0

/-- The timestamp-adjustment loop of `mergeIntoProfile`: units with zero
markers are passed through unshifted and do not advance the running offset;
every other unit is shifted by the offset accumulated so far, which then
advances by that unit's `maxEndTime`. -/
def mergeShift : List (List SourceMarker) → Int → List (List SourceMarker)
  | [], _ => []
  | u :: rest, off =>
    if u.isEmpty then u :: mergeShift rest off
    else u.map (shiftMarker off) :: mergeShift rest (off + maxEndTime u)

/-- `mergeIntoProfile`'s concatenation of all shifted units. -/
def mergedMarkers (units : List (List SourceMarker)) : List SourceMarker :=
  (mergeShift units 0).flatten

/-- The total offset contributed by a list of units: empty units contribute
nothing, every other unit its `maxEndTime`. -/
def runningOffset : List (List SourceMarker) → Int
  | [] => 0
  | u :: rest => (if u.isEmpty then 0 else maxEndTime u) + runningOffset rest

theorem foldl_maxEnd (u : List SourceMarker) :
    ∀ acc : Int,
      acc ≤ u.foldl (fun acc m => if acc < m.endTime then m.endTime else acc)
          acc ∧
      (∀ m ∈ u, m.endTime ≤
        u.foldl (fun acc m => if acc < m.endTime then m.endTime else acc)
          acc) ∧
      (u.foldl (fun acc m => if acc < m.endTime then m.endTime else acc) acc =
          acc ∨
        ∃ m ∈ u,
          u.foldl (fun acc m => if acc < m.endTime then m.endTime else acc)
            acc = m.endTime) := by
  induction u with
  | nil =>
    intro acc
    refine ⟨le_refl _, ?_, Or.inl rfl⟩
    intro m hm
    exact absurd hm (List.not_mem_nil m)
  | cons m rest ih =>
    intro acc
    rw [List.foldl_cons]
    by_cases hlt : acc < m.endTime
    · rw [if_pos hlt]
      obtain ⟨h1, h2, h3⟩ := ih m.endTime
      refine ⟨le_trans (le_of_lt hlt) h1, ?_, ?_⟩
      · intro m' hm'
        rcases List.mem_cons.mp hm' with h | h
        · rw [h]
          exact h1
        · exact h2 m' h
      · rcases h3 with h | ⟨m', hm', he⟩
        · exact Or.inr ⟨m, List.mem_cons_self _ _, h⟩
        · exact Or.inr ⟨m', List.mem_cons_of_mem _ hm', he⟩
    · rw [if_neg hlt]
      obtain ⟨h1, h2, h3⟩ := ih acc
      refine ⟨h1, ?_, ?_⟩
      · intro m' hm'
        rcases List.mem_cons.mp hm' with h | h
        · rw [h]
          omega
        · exact h2 m' h
      · rcases h3 with h | ⟨m', hm', he⟩
        · exact Or.inl h
        · exact Or.inr ⟨m', List.mem_cons_of_mem _ hm', he⟩

/-- For a nonempty unit with non-negative end timestamps, the code's
`maxEndTime` is attained by a marker and bounds every marker. -/
theorem maxEndTime_spec (u : List SourceMarker) (hne : u ≠ [])
    (hnn : ∀ m ∈ u, 0 ≤ m.endTime) :
    (∃ m ∈ u, maxEndTime u = m.endTime) ∧
      ∀ m ∈ u, m.endTime ≤ maxEndTime u := by
  obtain ⟨h1, h2, h3⟩ := foldl_maxEnd u 0
  refine ⟨?_, h2⟩
  rcases h3 with h | hex
  · cases u with
    | nil => exact absurd rfl hne
    | cons m rest =>
      refine ⟨m, List.mem_cons_self _ _, ?_⟩
      have hm1 := h2 m (List.mem_cons_self _ _)
      have hm2 := hnn m (List.mem_cons_self _ _)
      rw [maxEndTime]
      omega
  · exact hex

theorem mergeShift_getElem? (units : List (List SourceMarker)) :
    ∀ (off : Int) (k : Nat),
      (mergeShift units off)[k]? =
        (units[k]?).map
          (fun v => v.map
            (shiftMarker (off + runningOffset (units.take k)))) := by
  induction units with
  | nil =>
    intro off k
    simp [mergeShift]
  | cons u rest ih =>
    intro off k
    cases k with
    | zero =>
      by_cases hu : u.isEmpty = true
      · have hunil : u = [] := by
          cases u with
          | nil => rfl
          | cons a r => cases hu
        rw [show mergeShift (u :: rest) off = u :: mergeShift rest off from by
          rw [mergeShift, if_pos hu]]
        rw [hunil]
        simp
      · rw [show mergeShift (u :: rest) off =
            u.map (shiftMarker off) :: mergeShift rest (off + maxEndTime u)
            from by rw [mergeShift, if_neg hu]]
        simp [runningOffset]
    | succ k' =>
      by_cases hu : u.isEmpty = true
      · rw [show mergeShift (u :: rest) off = u :: mergeShift rest off from by
          rw [mergeShift, if_pos hu]]
        rw [List.getElem?_cons_succ, ih off k']
        rw [show (u :: rest).take (k' + 1) = u :: rest.take k' from rfl]
        rw [show runningOffset (u :: rest.take k') =
            (if u.isEmpty then 0 else maxEndTime u) +
              runningOffset (rest.take k') from rfl]
        rw [if_pos hu, zero_add, List.getElem?_cons_succ]
      · rw [show mergeShift (u :: rest) off =
            u.map (shiftMarker off) :: mergeShift rest (off + maxEndTime u)
            from by rw [mergeShift, if_neg hu]]
        rw [List.getElem?_cons_succ, ih (off + maxEndTime u) k']
        rw [show (u :: rest).take (k' + 1) = u :: rest.take k' from rfl]
        rw [show runningOffset (u :: rest.take k') =
            (if u.isEmpty then 0 else maxEndTime u) +
              runningOffset (rest.take k') from rfl]
        rw [if_neg hu]
        simp only [add_assoc]
        rw [List.getElem?_cons_succ]

/-- C6: for every list of units, the merger leaves every unit in place, with
each nonempty unit's markers all shifted by the offset accumulated over the
previous units; that offset advances by exactly each nonempty unit's maximum
end timestamp (attained by one of its markers and bounding all of them), and
empty units are passed through and contribute nothing. -/
theorem merger_offsets_spec (units : List (List SourceMarker))
    (hnn : ∀ u ∈ units, ∀ m ∈ u, 0 ≤ m.endTime) :
    (∀ k : Nat, (mergeShift units 0)[k]? =
        (units[k]?).map
          (fun v => v.map (shiftMarker (runningOffset (units.take k))))) ∧
      ∀ u ∈ units, u ≠ [] →
        (∃ m ∈ u, maxEndTime u = m.endTime) ∧
          ∀ m ∈ u, m.endTime ≤ maxEndTime u := by
  constructor
  · intro k
    have h := mergeShift_getElem? units 0 k
    simp only [zero_add] at h
    exact h
  · intro u hu hne
    exact maxEndTime_spec u hne (hnn u hu)

/-- Scenario 4's units: unit A has maximum end time 500, unit B starts at
zero. -/
def c6Units : List (List SourceMarker) :=
  [ [⟨"a.cpp", 0, 500, 500, ["a.cpp"]⟩],
    [⟨"b.h", 0, 120, 120, ["b.h"]⟩, ⟨"c.h", 10, 40, 30, ["c.h"]⟩] ]

theorem merger_offsets_spec_witness :
    (∀ u ∈ c6Units, ∀ m ∈ u, 0 ≤ m.endTime) ∧
      (mergeShift c6Units 0)[1]? =
        (c6Units[1]?).map
          (fun v => v.map (shiftMarker (runningOffset (c6Units.take 1)))) ∧
      runningOffset (c6Units.take 1) = 500 ∧
      (mergeShift c6Units 0)[1]? =
        some [⟨"b.h", 500, 620, 120, ["b.h"]⟩, ⟨"c.h", 510, 540, 30, ["c.h"]⟩] := by
  refine ⟨by decide, ?_, by decide, by decide⟩
  exact (merger_offsets_spec c6Units (by decide)).1 1

/-! ### Dashboard delta-encoded start times (C7) -/

/-- `Math.round(x / 1000)` on an integral microsecond count: JavaScript's
`Math.round` is floor(x + 1/2), so on integers it is `(n + 500) / 1000`
with floor division. -/
def roundDiv1000 (n : Int) : Int := (n + 500) / 1000

/-- The `startTimes` loop of the dashboard's `main`: each entry is the
rounded millisecond start minus the previous rounded millisecond start
(`prevStartTime` starts at 0). -/
def deltaLoop : List HierEntry → Int → List Int
  | [], _ => []
  | inc :: rest, prev =>
    (roundDiv1000 inc.startTime - prev) ::
      deltaLoop rest (roundDiv1000 inc.startTime)

/-- One unit's delta-encoded `startTimes` array. -/
def unitStartTimes (incs : List HierEntry) : List Int := deltaLoop incs 0

/-- Running cumulative sums of a list. -/
def cumsumFrom : Int → List Int → List Int
  | _, [] => []
  | acc, x :: r => (acc + x) :: cumsumFrom (acc + x) r

/-- Cumulative sums starting from zero. -/
def cumsum (l : List Int) : List Int := cumsumFrom 0 l

theorem cumsum_deltaLoop (incs : List HierEntry) :
    ∀ prev : Int,
      cumsumFrom prev (deltaLoop incs prev) =
        incs.map (fun i => roundDiv1000 i.startTime) := by
  induction incs with
  | nil => intro prev; rfl
  | cons inc rest ih =>
    intro prev
    rw [deltaLoop, cumsumFrom]
    have harith : prev + (roundDiv1000 inc.startTime - prev) =
        roundDiv1000 inc.startTime := by ring
    rw [harith, ih (roundDiv1000 inc.startTime), List.map_cons]

/-- The embedded rounding is rounding to nearest (halves up), not
truncation: it agrees with Mathlib's `round` on `n / 1000` as a rational
number. -/
theorem roundDiv1000_eq_round (n : Int) :
    roundDiv1000 n = round ((n : ℚ) / 1000) := by
  rw [round_eq]
  have h : (n : ℚ) / 1000 + 1 / 2 = ((n + 500 : ℤ) : ℚ) / ((1000 : ℕ) : ℚ) := by
    push_cast
    ring
  rw [h, Rat.floor_intCast_div_natCast]
  norm_num [roundDiv1000]

/-- Scenario 3's unit: three includes at absolute start times 100, 250 and
400 milliseconds (the trace clock is microseconds). -/
def c7Unit : List HierEntry :=
  [⟨"a.h", 100000, 150000, 50000, none⟩,
    ⟨"b.h", 250000, 260000, 10000, none⟩,
    ⟨"c.h", 400000, 410000, 10000, none⟩]

/-- C7: the dashboard stores each interval's start as a delta from the
previous interval's rounded-millisecond start (the first relative to zero),
rescaling by rounding rather than truncating; the cumulative sums of a
unit's `startTimes` reconstruct the rounded-millisecond absolute start
times exactly, and the scenario unit at 100/250/400 ms yields
`[100, 150, 150]`. -/
theorem startTimes_delta_roundtrip :
    (∀ (incs : List HierEntry),
      cumsum (unitStartTimes incs) =
        incs.map (fun i => roundDiv1000 i.startTime)) ∧
      (∀ n : Int, roundDiv1000 n = round ((n : ℚ) / 1000)) ∧
      unitStartTimes c7Unit = [100, 150, 150] ∧
      cumsum (unitStartTimes c7Unit) = [100, 250, 400] :=
  ⟨fun incs => cumsum_deltaLoop incs 0, roundDiv1000_eq_round,
    by decide, by decide⟩

/-! ### Dashboard global file dictionary (C8) -/

/-- `fileUsageCount.set(f, (fileUsageCount.get(f) || 0) + 1)`: a JavaScript
`Map` keeps first-insertion order; updating an existing key bumps its count
in place, a new key is appended. -/
def bumpCount (m : List (String × Nat)) (f : String) : List (String × Nat) :=
  if m.any (fun p => p.1 == f) then
    m.map (fun p => if p.1 == f then (p.1, p.2 + 1) else p)
  else m ++ [(f, 1)]

/-- The per-include counting step of the dashboard's `main`: the include's
own file always counts; the parent file counts when truthy (non-null and
non-empty). -/
def countInc (m : List (String × Nat)) (inc : HierEntry) :
    List (String × Nat) :=
  match inc.parentFile with
  | some pf =>
    if pf = "" then bumpCount m inc.file
    else bumpCount (bumpCount m inc.file) pf
  | none => bumpCount m inc.file

/-- Counting one unit's includes. -/
def countUnit (m : List (String × Nat)) (incs : List HierEntry) :
    List (String × Nat) :=
  incs.foldl countInc m

/-- The `fileUsageCount` map accumulated over all processed units. -/
def countAllUnits (units : List (List HierEntry)) : List (String × Nat) :=
  units.foldl countUnit []

/-- `Array.from(fileUsageCount.entries()).sort((a, b) => b[1] - a[1])`:
the usage entries, most used first. -/
def sortedFileEntries (units : List (List HierEntry)) : List (String × Nat) :=
  sortByLe (fun a b => decide (b.2 ≤ a.2)) (countAllUnits units)

/-- The dashboard's global `files` dictionary: file paths in descending
usage order. -/
def filesArray (units : List (List HierEntry)) : List String :=
  (sortedFileEntries units).map Prod.fst

/-- The per-unit include lists the dashboard's `main` feeds the counting
loop: units with zero intervals are skipped, the rest get their hierarchy
entries sorted chronologically. -/
def dashUnits (unitIvs : List (List Interval)) : List (List HierEntry) :=
  (unitIvs.filter (fun ivs => !ivs.isEmpty)).map
    (fun ivs =>
      sortByLe (fun a b => decide (a.startTime ≤ b.startTime))
        (buildIncludeHierarchy ivs))

theorem any_key_iff (m : List (String × Nat)) (f : String) :
    m.any (fun p => p.1 == f) = true ↔ f ∈ m.map Prod.fst := by
  rw [List.any_eq_true]
  constructor
  · intro ⟨p, hp, hpf⟩
    rw [beq_iff_eq] at hpf
    exact List.mem_map.mpr ⟨p, hp, hpf⟩
  · intro h
    obtain ⟨p, hp, hpf⟩ := List.mem_map.mp h
    exact ⟨p, hp, beq_iff_eq.mpr hpf⟩

theorem keys_update (m : List (String × Nat)) (f : String) :
    (m.map (fun p => if p.1 == f then (p.1, p.2 + 1) else p)).map Prod.fst =
      m.map Prod.fst := by
  induction m with
  | nil => rfl
  | cons p r ih =>
    by_cases hp : (p.1 == f) = true
    · simp only [List.map_cons, if_pos hp, ih]
    · simp only [List.map_cons, if_neg hp, ih]

theorem bump_keys (m : List (String × Nat)) (f : String) :
    (bumpCount m f).map Prod.fst =
      if f ∈ m.map Prod.fst then m.map Prod.fst
      else m.map Prod.fst ++ [f] := by
  by_cases h : m.any (fun p => p.1 == f) = true
  · rw [bumpCount, if_pos h, keys_update, if_pos ((any_key_iff m f).mp h)]
  · rw [bumpCount, if_neg h, List.map_append,
      if_neg (fun hm => h ((any_key_iff m f).mpr hm))]
    rfl

theorem bump_keys_mem (m : List (String × Nat)) (f g : String) :
    g ∈ (bumpCount m f).map Prod.fst ↔ g ∈ m.map Prod.fst ∨ g = f := by
  rw [bump_keys]
  by_cases h : f ∈ m.map Prod.fst
  · rw [if_pos h]
    constructor
    · exact Or.inl
    · intro hg
      rcases hg with hg | hg
      · exact hg
      · exact hg ▸ h
  · rw [if_neg h, List.mem_append, List.mem_singleton]

theorem bump_keys_nodup (m : List (String × Nat)) (f : String)
    (hnd : (m.map Prod.fst).Nodup) : ((bumpCount m f).map Prod.fst).Nodup := by
  rw [bump_keys]
  by_cases h : f ∈ m.map Prod.fst
  · rw [if_pos h]
    exact hnd
  · rw [if_neg h]
    refine (List.perm_append_singleton f (m.map Prod.fst)).nodup_iff.mpr ?_
    exact List.nodup_cons.mpr ⟨h, hnd⟩

theorem countInc_none (m : List (String × Nat)) (inc : HierEntry)
    (h : inc.parentFile = none) : countInc m inc = bumpCount m inc.file := by
  rw [countInc, h]

theorem countInc_some (m : List (String × Nat)) (inc : HierEntry)
    (pf : String) (h : inc.parentFile = some pf) :
    countInc m inc =
      if pf = "" then bumpCount m inc.file
      else bumpCount (bumpCount m inc.file) pf := by
  rw [countInc, h]

theorem countInc_keys_mem (m : List (String × Nat)) (inc : HierEntry)
    (g : String) :
    g ∈ (countInc m inc).map Prod.fst ↔
      g ∈ m.map Prod.fst ∨ g = inc.file ∨
        (inc.parentFile = some g ∧ g ≠ "") := by
  cases hpf : inc.parentFile with
  | none =>
    rw [countInc_none m inc hpf, bump_keys_mem]
    constructor
    · intro h
      rcases h with h | h
      · exact Or.inl h
      · exact Or.inr (Or.inl h)
    · intro h
      rcases h with h | h | ⟨h, _⟩
      · exact Or.inl h
      · exact Or.inr h
      · cases h
  | some pf =>
    rw [countInc_some m inc pf hpf]
    by_cases hempty : pf = ""
    · rw [if_pos hempty, bump_keys_mem]
      constructor
      · intro h
        rcases h with h | h
        · exact Or.inl h
        · exact Or.inr (Or.inl h)
      · intro h
        rcases h with h | h | ⟨h, hne⟩
        · exact Or.inl h
        · exact Or.inr h
        · exact absurd (hempty ▸ (Option.some.inj h).symm) hne
    · rw [if_neg hempty, bump_keys_mem, bump_keys_mem]
      constructor
      · intro h
        rcases h with (h | h) | h
        · exact Or.inl h
        · exact Or.inr (Or.inl h)
        · exact Or.inr (Or.inr ⟨by rw [h], fun hg => hempty (h ▸ hg)⟩)
      · intro h
        rcases h with h | h | ⟨h, _⟩
        · exact Or.inl (Or.inl h)
        · exact Or.inl (Or.inr h)
        · exact Or.inr (Option.some.inj h).symm

theorem countInc_keys_nodup (m : List (String × Nat)) (inc : HierEntry)
    (hnd : (m.map Prod.fst).Nodup) :
    ((countInc m inc).map Prod.fst).Nodup := by
  cases hpf : inc.parentFile with
  | none =>
    rw [countInc_none m inc hpf]
    exact bump_keys_nodup _ _ hnd
  | some pf =>
    rw [countInc_some m inc pf hpf]
    by_cases hempty : pf = ""
    · rw [if_pos hempty]
      exact bump_keys_nodup _ _ hnd
    · rw [if_neg hempty]
      exact bump_keys_nodup _ _ (bump_keys_nodup _ _ hnd)

theorem countUnit_keys_mem :
    ∀ (incs : List HierEntry) (m : List (String × Nat)) (g : String),
      g ∈ (countUnit m incs).map Prod.fst ↔
        g ∈ m.map Prod.fst ∨
          ∃ inc ∈ incs, g = inc.file ∨
            (inc.parentFile = some g ∧ g ≠ "") := by
  intro incs
  induction incs with
  | nil =>
    intro m g
    rw [countUnit, List.foldl_nil]
    constructor
    · exact Or.inl
    · intro h
      rcases h with h | ⟨inc, hinc, _⟩
      · exact h
      · exact absurd hinc (List.not_mem_nil inc)
  | cons inc rest ih =>
    intro m g
    rw [countUnit, List.foldl_cons, show List.foldl countInc (countInc m inc)
      rest = countUnit (countInc m inc) rest from rfl, ih]
    rw [countInc_keys_mem]
    constructor
    · intro h
      rcases h with (h | h | h) | ⟨i, hi, hp⟩
      · exact Or.inl h
      · exact Or.inr ⟨inc, List.mem_cons_self _ _, Or.inl h⟩
      · exact Or.inr ⟨inc, List.mem_cons_self _ _, Or.inr h⟩
      · exact Or.inr ⟨i, List.mem_cons_of_mem _ hi, hp⟩
    · intro h
      rcases h with h | ⟨i, hi, hp⟩
      · exact Or.inl (Or.inl h)
      · rcases List.mem_cons.mp hi with hh | hh
        · rcases hp with hp | hp
          · exact Or.inl (Or.inr (Or.inl (hh ▸ hp)))
          · exact Or.inl (Or.inr (Or.inr (hh ▸ hp)))
        · exact Or.inr ⟨i, hh, hp⟩

theorem countUnit_keys_nodup :
    ∀ (incs : List HierEntry) (m : List (String × Nat)),
      (m.map Prod.fst).Nodup → ((countUnit m incs).map Prod.fst).Nodup := by
  intro incs
  induction incs with
  | nil =>
    intro m hnd
    exact hnd
  | cons inc rest ih =>
    intro m hnd
    rw [countUnit, List.foldl_cons]
    exact ih (countInc m inc) (countInc_keys_nodup m inc hnd)

theorem countAllUnits_keys_mem :
    ∀ (units : List (List HierEntry)) (m : List (String × Nat)) (g : String),
      g ∈ (units.foldl countUnit m).map Prod.fst ↔
        g ∈ m.map Prod.fst ∨
          ∃ u ∈ units, ∃ inc ∈ u, g = inc.file ∨
            (inc.parentFile = some g ∧ g ≠ "") := by
  intro units
  induction units with
  | nil =>
    intro m g
    rw [List.foldl_nil]
    constructor
    · exact Or.inl
    · intro h
      rcases h with h | ⟨u, hu, _⟩
      · exact h
      · exact absurd hu (List.not_mem_nil u)
  | cons u rest ih =>
    intro m g
    rw [List.foldl_cons, ih, countUnit_keys_mem]
    constructor
    · intro h
      rcases h with (h | ⟨i, hi, hp⟩) | ⟨u', hu', hp⟩
      · exact Or.inl h
      · exact Or.inr ⟨u, List.mem_cons_self _ _, i, hi, hp⟩
      · exact Or.inr ⟨u', List.mem_cons_of_mem _ hu', hp⟩
    · intro h
      rcases h with h | ⟨u', hu', i, hi, hp⟩
      · exact Or.inl (Or.inl h)
      · rcases List.mem_cons.mp hu' with hh | hh
        · exact Or.inl (Or.inr ⟨i, hh ▸ hi, hp⟩)
        · exact Or.inr ⟨u', hh, i, hi, hp⟩

theorem countAllUnits_keys_nodup (units : List (List HierEntry)) :
    ((countAllUnits units).map Prod.fst).Nodup := by
  rw [countAllUnits]
  have hgen : ∀ (us : List (List HierEntry)) (m : List (String × Nat)),
      (m.map Prod.fst).Nodup → ((us.foldl countUnit m).map Prod.fst).Nodup := by
    intro us
    induction us with
    | nil => intro m hnd; exact hnd
    | cons u rest ih =>
      intro m hnd
      rw [List.foldl_cons]
      exact ih (countUnit m u) (countUnit_keys_nodup u m hnd)
  exact hgen units [] (by simp)

/-- A parent file recorded by `buildIncludeHierarchy` is always some
interval's own file within the same unit. -/
theorem hier_parent_is_own_file (ivs : List Interval) (e : HierEntry)
    (he : e ∈ buildIncludeHierarchy ivs) (pf : String)
    (hpf : e.parentFile = some pf) :
    ∃ e' ∈ buildIncludeHierarchy ivs, e'.file = pf := by
  obtain ⟨p, hp, hpe⟩ := List.mem_map.mp he
  rw [← hpe] at hpf
  have hmap : (findImmediateParent (tag ivs) p).map (fun q => q.2.file) =
      some pf := hpf
  cases hf : findImmediateParent (tag ivs) p with
  | none =>
    rw [hf] at hmap
    cases hmap
  | some q =>
    rw [hf] at hmap
    have hq := (foldl_stepParent_none_char p (tag ivs)).2 q hf
    refine ⟨hierEntry (tag ivs) q, List.mem_map.mpr ⟨q, hq.1, rfl⟩, ?_⟩
    exact Option.some.inj hmap

/-- The own file of every hierarchy entry of a unit is one of the unit's
interval files. -/
theorem hier_file_is_interval_file (ivs : List Interval) (e : HierEntry)
    (he : e ∈ buildIncludeHierarchy ivs) : ∃ iv ∈ ivs, iv.file = e.file := by
  obtain ⟨p, hp, hpe⟩ := List.mem_map.mp he
  have hsnd : p.2 ∈ ivs := by
    have : ∀ (k : Nat) (l : List Interval) (x : Nat × Interval),
        x ∈ tagFrom k l → x.2 ∈ l := by
      intro k l
      induction l generalizing k with
      | nil => intro x hx; exact absurd hx (List.not_mem_nil x)
      | cons a r ih =>
        intro x hx
        rcases List.mem_cons.mp hx with hxa | hxr
        · rw [hxa]
          exact List.mem_cons_self _ _
        · exact List.mem_cons_of_mem _ (ih (k + 1) x hxr)
    exact this 0 ivs p hp
  exact ⟨p.2, hsnd, by rw [← hpe]; rfl⟩

/-- C8: for every dashboard run over non-empty file names, the global files
dictionary is duplicate-free, contains exactly the file paths occurring as
an include's own file or as a nearest-parent's file, and its usage counts
are non-increasing by index (most used first). -/
theorem file_dictionary_spec (unitIvs : List (List Interval))
    (hfe : ∀ ivs ∈ unitIvs, ∀ iv ∈ ivs, iv.file ≠ "") :
    (filesArray (dashUnits unitIvs)).Nodup ∧
      (∀ f : String, f ∈ filesArray (dashUnits unitIvs) ↔
        ∃ u ∈ dashUnits unitIvs, ∃ e ∈ u,
          e.file = f ∨ e.parentFile = some f) ∧
      (sortedFileEntries (dashUnits unitIvs)).Pairwise
        (fun a b => b.2 ≤ a.2) := by
  have hperm : (sortedFileEntries (dashUnits unitIvs)).Perm
      (countAllUnits (dashUnits unitIvs)) := sortByLe_perm _ _
  have hmem_unit : ∀ u ∈ dashUnits unitIvs, ∃ ivs ∈ unitIvs,
      (∀ e, e ∈ u ↔ e ∈ buildIncludeHierarchy ivs) ∧
        ∀ iv ∈ ivs, iv.file ≠ "" := by
    intro u hu
    obtain ⟨ivs, hivs, hueq⟩ := List.mem_map.mp hu
    have hivs' : ivs ∈ unitIvs := List.mem_of_mem_filter hivs
    refine ⟨ivs, hivs', ?_, hfe ivs hivs'⟩
    intro e
    rw [← hueq]
    exact (sortByLe_perm _ _).mem_iff
  refine ⟨?_, ?_, ?_⟩
  · rw [filesArray]
    refine (hperm.map Prod.fst).nodup_iff.mpr ?_
    exact countAllUnits_keys_nodup (dashUnits unitIvs)
  · intro f
    rw [filesArray]
    rw [(hperm.map Prod.fst).mem_iff]
    rw [show countAllUnits (dashUnits unitIvs) =
      (dashUnits unitIvs).foldl countUnit [] from rfl]
    rw [countAllUnits_keys_mem]
    constructor
    · intro h
      rcases h with h | ⟨u, hu, inc, hinc, hp⟩
      · simp at h
      · rcases hp with hp | hp
        · exact ⟨u, hu, inc, hinc, Or.inl hp.symm⟩
        · exact ⟨u, hu, inc, hinc, Or.inr hp.1⟩
    · intro ⟨u, hu, e, he, hp⟩
      obtain ⟨ivs, hivs, hiff, hne⟩ := hmem_unit u hu
      rcases hp with hp | hp
      · exact Or.inr ⟨u, hu, e, he, Or.inl hp.symm⟩
      · obtain ⟨e', he', hf'⟩ :=
          hier_parent_is_own_file ivs e ((hiff e).mp he) f hp
        obtain ⟨iv, hiv, hivf⟩ := hier_file_is_interval_file ivs e' he'
        have hfne : f ≠ "" := by
          rw [← hf', ← hivf]
          exact hne iv hiv
        exact Or.inr ⟨u, hu, e, he, Or.inr ⟨hp, hfne⟩⟩
  · have hpw := sortByLe_pairwise (fun a b : String × Nat => decide (b.2 ≤ a.2))
      (fun x y => by
        rcases le_total y.2 x.2 with h | h
        · exact Or.inl (decide_eq_true h)
        · exact Or.inr (decide_eq_true h))
      (fun x y z hxy hyz => by
        rw [decide_eq_true_eq] at hxy hyz
        exact decide_eq_true (le_trans hyz hxy))
      (countAllUnits (dashUnits unitIvs))
    exact hpw.imp (fun h => by rwa [decide_eq_true_eq] at h)

/-- The single-unit run used to instantiate C8. -/
def c8UnitIvs : List (List Interval) := [c2Unit]

theorem file_dictionary_spec_witness :
    (∀ ivs ∈ c8UnitIvs, ∀ iv ∈ ivs, iv.file ≠ "") ∧
      (filesArray (dashUnits c8UnitIvs)).Nodup ∧
      filesArray (dashUnits c8UnitIvs) = ["outer", "inner"] ∧
      (sortedFileEntries (dashUnits c8UnitIvs)).Pairwise
        (fun a b => b.2 ≤ a.2) := by
  refine ⟨by decide, ?_, by decide, ?_⟩
  · exact (file_dictionary_spec c8UnitIvs (by decide)).1
  · exact (file_dictionary_spec c8UnitIvs (by decide)).2.2

/-! ### Profiler serializer tables (C9)

`convertToProfiler` builds four deduplicated tables through
`addString`, `getOrCreateFunc`, `getOrCreateFrame` and `getOrCreateStack`,
each guarded by a cache.  The stack cache key
`` `${frameIndex}-${prefixStack ?? 'null'}` `` is modelled as the pair
`(frameIndex, parentStack)`; the rendering of such a pair is injective
(decimal numbers and the token `null` contain no dash).  A run is a
sequence of requests against one set of tables. -/

/-- A request made of the serializer's table builders during one run. -/
inductive TableReq where
  | rfunc (name : String)
  | rframe (name : String)
  | rstack (frameIndex : Nat) (parentStack : Option Nat)
  deriving DecidableEq, Repr

/-- The mutable table state of `convertToProfiler`: the deduplicated string
table, the function/frame/stack table columns, and the three caches.
Columns that hold the same constant for every row (`isJS`, `resource`,
`category`, …) are carried along as the source pushes them. -/
structure Tables where
  stringTable : List String
  stringMap : List (String × Nat)
  funcName : List Nat
  funcIsJS : List Bool
  funcRelevantForJS : List Bool
  funcResource : List Int
  funcFileName : List Nat
  frameFunc : List Nat
  frameCategory : List Nat
  frameSubcategory : List Nat
  stackFrame : List Nat
  stackParent : List (Option Nat)
  funcCache : List (String × Nat)
  frameCache : List (String × Nat)
  stackCache : List ((Nat × Option Nat) × Nat)
  deriving DecidableEq, Repr

/-- JavaScript `Map.get`, on an association list kept in insertion order. -/
def lookupA {α : Type} [DecidableEq α] (m : List (α × Nat)) (k : α) :
    Option Nat :=
  (m.find? (fun p => decide (p.1 = k))).map Prod.snd

/-- The initial tables: index 0 of the string table is the empty string. -/
def initTables : Tables :=
  { stringTable := [""]
    stringMap := [("", 0)]
    funcName := []
    funcIsJS := []
    funcRelevantForJS := []
    funcResource := []
    funcFileName := []
    frameFunc := []
    frameCategory := []
    frameSubcategory := []
    stackFrame := []
    stackParent := []
    funcCache := []
    frameCache := []
    stackCache := [] }

/-- `addString`: return the cached index or push the string. -/
def addString (s : Tables) (str : String) : Nat × Tables :=
  match lookupA s.stringMap str with
  | some i => (i, s)
  | none =>
    (s.stringTable.length,
      { s with
        stringTable := s.stringTable ++ [str]
        stringMap := s.stringMap ++ [(str, s.stringTable.length)] })

/-- `getOrCreateFunc`: one function row per distinct file path, the path
serving as both display name and file name. -/
def getOrCreateFunc (s : Tables) (name : String) : Nat × Tables :=
  match lookupA s.funcCache name with
  | some i => (i, s)
  | none =>
    let funcIndex := s.funcName.length
    let r := addString s name
    (funcIndex,
      { r.2 with
        funcName := r.2.funcName ++ [r.1]
        funcIsJS := r.2.funcIsJS ++ [false]
        funcRelevantForJS := r.2.funcRelevantForJS ++ [false]
        funcResource := r.2.funcResource ++ [-1]
        funcFileName := r.2.funcFileName ++ [r.1]
        funcCache := r.2.funcCache ++ [(name, funcIndex)] })

/-- `getOrCreateFrame`: one frame row per distinct file path, tagged with
the fixed Compilation/Header-Processing category pair. -/
def getOrCreateFrame (s : Tables) (name : String) : Nat × Tables :=
  match lookupA s.frameCache name with
  | some i => (i, s)
  | none =>
    let r := getOrCreateFunc s name
    let frameIndex := r.2.frameFunc.length
    (frameIndex,
      { r.2 with
        frameFunc := r.2.frameFunc ++ [r.1]
        frameCategory := r.2.frameCategory ++ [1]
        frameSubcategory := r.2.frameSubcategory ++ [1]
        frameCache := r.2.frameCache ++ [(name, frameIndex)] })

/-- `getOrCreateStack`: one stack row per distinct (frame, parent-stack)
pair. -/
def getOrCreateStack (s : Tables) (frameIndex : Nat)
    (parentStack : Option Nat) : Nat × Tables :=
  match lookupA s.stackCache (frameIndex, parentStack) with
  | some i => (i, s)
  | none =>
    let stackIndex := s.stackFrame.length
    (stackIndex,
      { s with
        stackFrame := s.stackFrame ++ [frameIndex]
        stackParent := s.stackParent ++ [parentStack]
        stackCache :=
          s.stackCache ++ [((frameIndex, parentStack), stackIndex)] })

/-- Dispatch one request. -/
def applyReq (s : Tables) : TableReq → Nat × Tables
  | .rfunc n => getOrCreateFunc s n
  | .rframe n => getOrCreateFrame s n
  | .rstack f p => getOrCreateStack s f p

/-- Run a request sequence, collecting the returned indices. -/
def runReqs (s : Tables) : List TableReq → List Nat × Tables
  | [] => ([], s)
  | r :: rest =>
    let a := applyReq s r
    let b := runReqs a.2 rest
    (a.1 :: b.1, b.2)

/-- The function-table keys requested by a sequence (a frame request asks
for its function too). -/
def funcKeys : List TableReq → List String :=
  List.filterMap (fun r =>
    match r with
    | .rfunc n => some n
    | .rframe n => some n
    | .rstack _ _ => none)

/-- The frame-table keys requested by a sequence. -/
def frameKeys : List TableReq → List String :=
  List.filterMap (fun r =>
    match r with
    | .rframe n => some n
    | _ => none)

/-- The stack-table keys requested by a sequence. -/
def stackKeys : List TableReq → List (Nat × Option Nat) :=
  List.filterMap (fun r =>
    match r with
    | .rstack f p => some (f, p)
    | _ => none)

/-- A Cache hit: the state's cache already answers request `r` with `a`. -/
def CacheHit (s : Tables) : TableReq → Nat → Prop
  | .rfunc n, a => lookupA s.funcCache n = some a
  | .rframe n, a => lookupA s.frameCache n = some a
  | .rstack f p, a => lookupA s.stackCache (f, p) = some a

theorem lookupA_none_iff {α : Type} [DecidableEq α] (m : List (α × Nat))
    (k : α) : lookupA m k = none ↔ k ∉ m.map Prod.fst := by
  rw [lookupA, Option.map_eq_none', List.find?_eq_none]
  constructor
  · intro h hk
    obtain ⟨p, hp, hpk⟩ := List.mem_map.mp hk
    exact h p hp (decide_eq_true hpk)
  · intro h p hp hd
    exact h (List.mem_map.mpr ⟨p, hp, of_decide_eq_true hd⟩)

theorem find?_append_some {α : Type} (f : α → Bool) {x : α} :
    ∀ (m d : List α), m.find? f = some x → (m ++ d).find? f = some x := by
  intro m
  induction m with
  | nil =>
    intro d h
    simp [List.find?] at h
  | cons a rest ih =>
    intro d h
    cases hf : f a with
    | true =>
      rw [List.find?_cons_of_pos _ hf] at h
      rw [List.cons_append, List.find?_cons_of_pos _ hf]
      exact h
    | false =>
      rw [List.find?_cons_of_neg _ (by simp [hf])] at h
      rw [List.cons_append, List.find?_cons_of_neg _ (by simp [hf])]
      exact ih d h

theorem find?_append_of_none {α : Type} (f : α → Bool) :
    ∀ (m d : List α), m.find? f = none → (m ++ d).find? f = d.find? f := by
  intro m
  induction m with
  | nil =>
    intro d _
    rfl
  | cons a rest ih =>
    intro d h
    cases hf : f a with
    | true =>
      rw [List.find?_cons_of_pos _ hf] at h
      cases h
    | false =>
      rw [List.find?_cons_of_neg _ (by simp [hf])] at h
      rw [List.cons_append, List.find?_cons_of_neg _ (by simp [hf])]
      exact ih d h

theorem lookupA_append_suffix {α : Type} [DecidableEq α] {k : α} {i : Nat}
    (m d : List (α × Nat)) (h : lookupA m k = some i) :
    lookupA (m ++ d) k = some i := by
  rw [lookupA] at h ⊢
  obtain ⟨pr, hpr, hsnd⟩ := Option.map_eq_some'.mp h
  rw [find?_append_some _ m d hpr]
  rw [Option.map_some', hsnd]

theorem lookupA_append_new {α : Type} [DecidableEq α] {k : α} (v : Nat)
    (m : List (α × Nat)) (h : lookupA m k = none) :
    lookupA (m ++ [(k, v)]) k = some v := by
  rw [lookupA] at h ⊢
  rw [find?_append_of_none _ m [(k, v)] (Option.map_eq_none'.mp h)]
  simp [List.find?]

theorem addString_fields (s : Tables) (str : String) :
    (addString s str).2.funcName = s.funcName ∧
      (addString s str).2.frameFunc = s.frameFunc ∧
      (addString s str).2.stackFrame = s.stackFrame ∧
      (addString s str).2.funcCache = s.funcCache ∧
      (addString s str).2.frameCache = s.frameCache ∧
      (addString s str).2.stackCache = s.stackCache := by
  unfold addString
  cases lookupA s.stringMap str <;> exact ⟨rfl, rfl, rfl, rfl, rfl, rfl⟩

theorem func_hit {s : Tables} {n : String} {i : Nat}
    (h : lookupA s.funcCache n = some i) : getOrCreateFunc s n = (i, s) := by
  unfold getOrCreateFunc
  rw [h]

theorem func_miss {s : Tables} {n : String}
    (h : lookupA s.funcCache n = none) :
    (getOrCreateFunc s n).1 = s.funcName.length ∧
      (getOrCreateFunc s n).2.funcCache =
        s.funcCache ++ [(n, s.funcName.length)] ∧
      (getOrCreateFunc s n).2.funcName.length = s.funcName.length + 1 := by
  unfold getOrCreateFunc
  rw [h]
  obtain ⟨h1, _, _, h4, _, _⟩ := addString_fields s n
  refine ⟨rfl, ?_, ?_⟩
  · show (addString s n).2.funcCache ++ [(n, s.funcName.length)] =
      s.funcCache ++ [(n, s.funcName.length)]
    rw [h4]
  · show ((addString s n).2.funcName ++ [(addString s n).1]).length =
      s.funcName.length + 1
    rw [List.length_append, h1]
    rfl

theorem func_other_fields (s : Tables) (n : String) :
    (getOrCreateFunc s n).2.frameFunc = s.frameFunc ∧
      (getOrCreateFunc s n).2.stackFrame = s.stackFrame ∧
      (getOrCreateFunc s n).2.frameCache = s.frameCache ∧
      (getOrCreateFunc s n).2.stackCache = s.stackCache := by
  unfold getOrCreateFunc
  cases lookupA s.funcCache n with
  | some i => exact ⟨rfl, rfl, rfl, rfl⟩
  | none =>
    obtain ⟨_, h2, h3, _, h5, h6⟩ := addString_fields s n
    exact ⟨h2, h3, h5, h6⟩

theorem func_cache_ext (s : Tables) (n : String) :
    ∃ d, (getOrCreateFunc s n).2.funcCache = s.funcCache ++ d := by
  cases hl : lookupA s.funcCache n with
  | some i =>
    rw [func_hit hl]
    exact ⟨[], by rw [List.append_nil]⟩
  | none => exact ⟨_, (func_miss hl).2.1⟩

theorem frame_hit {s : Tables} {n : String} {i : Nat}
    (h : lookupA s.frameCache n = some i) : getOrCreateFrame s n = (i, s) := by
  unfold getOrCreateFrame
  rw [h]

theorem frame_miss {s : Tables} {n : String}
    (h : lookupA s.frameCache n = none) :
    (getOrCreateFrame s n).1 = s.frameFunc.length ∧
      (getOrCreateFrame s n).2.frameCache =
        s.frameCache ++ [(n, s.frameFunc.length)] ∧
      (getOrCreateFrame s n).2.frameFunc.length = s.frameFunc.length + 1 ∧
      (getOrCreateFrame s n).2.funcCache =
        (getOrCreateFunc s n).2.funcCache ∧
      (getOrCreateFrame s n).2.funcName = (getOrCreateFunc s n).2.funcName ∧
      (getOrCreateFrame s n).2.stackFrame = s.stackFrame ∧
      (getOrCreateFrame s n).2.stackCache = s.stackCache := by
  obtain ⟨hf1, hf2, hf3, hf4⟩ := func_other_fields s n
  unfold getOrCreateFrame
  rw [h]
  refine ⟨?_, ?_, ?_, rfl, rfl, hf2, hf4⟩
  · show (getOrCreateFunc s n).2.frameFunc.length = s.frameFunc.length
    rw [hf1]
  · show (getOrCreateFunc s n).2.frameCache ++
        [(n, (getOrCreateFunc s n).2.frameFunc.length)] =
      s.frameCache ++ [(n, s.frameFunc.length)]
    rw [hf1, hf3]
  · show ((getOrCreateFunc s n).2.frameFunc ++
        [(getOrCreateFunc s n).1]).length = s.frameFunc.length + 1
    rw [List.length_append, hf1]
    rfl

theorem frame_other_fields (s : Tables) (n : String) :
    (getOrCreateFrame s n).2.stackFrame = s.stackFrame ∧
      (getOrCreateFrame s n).2.stackCache = s.stackCache := by
  cases hl : lookupA s.frameCache n with
  | some i =>
    rw [frame_hit hl]
    exact ⟨rfl, rfl⟩
  | none =>
    obtain ⟨_, _, _, _, _, h6, h7⟩ := frame_miss hl
    exact ⟨h6, h7⟩

theorem frame_cache_ext (s : Tables) (n : String) :
    (∃ d, (getOrCreateFrame s n).2.frameCache = s.frameCache ++ d) ∧
      ∃ d, (getOrCreateFrame s n).2.funcCache = s.funcCache ++ d := by
  cases hl : lookupA s.frameCache n with
  | some i =>
    rw [frame_hit hl]
    exact ⟨⟨[], by rw [List.append_nil]⟩, ⟨[], by rw [List.append_nil]⟩⟩
  | none =>
    obtain ⟨_, h2, _, h4, _, _, _⟩ := frame_miss hl
    obtain ⟨d, hd⟩ := func_cache_ext s n
    exact ⟨⟨_, h2⟩, ⟨d, by rw [h4, hd]⟩⟩

theorem stack_hit {s : Tables} {f : Nat} {p : Option Nat} {i : Nat}
    (h : lookupA s.stackCache (f, p) = some i) :
    getOrCreateStack s f p = (i, s) := by
  unfold getOrCreateStack
  rw [h]

theorem stack_miss {s : Tables} {f : Nat} {p : Option Nat}
    (h : lookupA s.stackCache (f, p) = none) :
    (getOrCreateStack s f p).1 = s.stackFrame.length ∧
      (getOrCreateStack s f p).2.stackCache =
        s.stackCache ++ [((f, p), s.stackFrame.length)] ∧
      (getOrCreateStack s f p).2.stackFrame.length =
        s.stackFrame.length + 1 ∧
      (getOrCreateStack s f p).2.funcCache = s.funcCache ∧
      (getOrCreateStack s f p).2.frameCache = s.frameCache ∧
      (getOrCreateStack s f p).2.funcName = s.funcName ∧
      (getOrCreateStack s f p).2.frameFunc = s.frameFunc := by
  unfold getOrCreateStack
  rw [h]
  refine ⟨rfl, rfl, ?_, rfl, rfl, rfl, rfl⟩
  show (s.stackFrame ++ [f]).length = s.stackFrame.length + 1
  rw [List.length_append]
  rfl

theorem stack_other_fields (s : Tables) (f : Nat) (p : Option Nat) :
    (getOrCreateStack s f p).2.funcCache = s.funcCache ∧
      (getOrCreateStack s f p).2.frameCache = s.frameCache ∧
      (getOrCreateStack s f p).2.funcName = s.funcName ∧
      (getOrCreateStack s f p).2.frameFunc = s.frameFunc := by
  cases hl : lookupA s.stackCache (f, p) with
  | some i =>
    rw [stack_hit hl]
    exact ⟨rfl, rfl, rfl, rfl⟩
  | none =>
    obtain ⟨_, _, _, h4, h5, h6, h7⟩ := stack_miss hl
    exact ⟨h4, h5, h6, h7⟩

theorem stack_cache_ext (s : Tables) (f : Nat) (p : Option Nat) :
    ∃ d, (getOrCreateStack s f p).2.stackCache = s.stackCache ++ d := by
  cases hl : lookupA s.stackCache (f, p) with
  | some i =>
    rw [stack_hit hl]
    exact ⟨[], by rw [List.append_nil]⟩
  | none => exact ⟨_, (stack_miss hl).2.1⟩

theorem cacheHit_apply {s : Tables} {r : TableReq} {a : Nat}
    (h : CacheHit s r a) : applyReq s r = (a, s) := by
  cases r with
  | rfunc n => exact func_hit h
  | rframe n => exact frame_hit h
  | rstack f p => exact stack_hit h

theorem applyReq_post (s : Tables) (r : TableReq) :
    CacheHit (applyReq s r).2 r (applyReq s r).1 := by
  cases r with
  | rfunc n =>
    cases hl : lookupA s.funcCache n with
    | some i =>
      show CacheHit (getOrCreateFunc s n).2 (.rfunc n) (getOrCreateFunc s n).1
      rw [func_hit hl]
      exact hl
    | none =>
      obtain ⟨h1, h2, _⟩ := func_miss hl
      show lookupA (getOrCreateFunc s n).2.funcCache n =
        some (getOrCreateFunc s n).1
      rw [h1, h2]
      exact lookupA_append_new _ _ hl
  | rframe n =>
    cases hl : lookupA s.frameCache n with
    | some i =>
      show CacheHit (getOrCreateFrame s n).2 (.rframe n) (getOrCreateFrame s n).1
      rw [frame_hit hl]
      exact hl
    | none =>
      obtain ⟨h1, h2, _⟩ := frame_miss hl
      show lookupA (getOrCreateFrame s n).2.frameCache n =
        some (getOrCreateFrame s n).1
      rw [h1, h2]
      exact lookupA_append_new _ _ hl
  | rstack f p =>
    cases hl : lookupA s.stackCache (f, p) with
    | some i =>
      show CacheHit (getOrCreateStack s f p).2 (.rstack f p)
        (getOrCreateStack s f p).1
      rw [stack_hit hl]
      exact hl
    | none =>
      obtain ⟨h1, h2, _⟩ := stack_miss hl
      show lookupA (getOrCreateStack s f p).2.stackCache (f, p) =
        some (getOrCreateStack s f p).1
      rw [h1, h2]
      exact lookupA_append_new _ _ hl

theorem applyReq_mono {s : Tables} {r : TableReq} {a : Nat}
    (h : CacheHit s r a) (r' : TableReq) :
    CacheHit (applyReq s r').2 r a := by
  cases r with
  | rfunc n =>
    show lookupA (applyReq s r').2.funcCache n = some a
    have hext : ∃ d, (applyReq s r').2.funcCache = s.funcCache ++ d := by
      cases r' with
      | rfunc n' => exact func_cache_ext s n'
      | rframe n' => exact (frame_cache_ext s n').2
      | rstack f' p' =>
        exact ⟨[], by
          rw [show (applyReq s (.rstack f' p')).2 = (getOrCreateStack s f' p').2
              from rfl,
            (stack_other_fields s f' p').1, List.append_nil]⟩
    obtain ⟨d, hd⟩ := hext
    rw [hd]
    exact lookupA_append_suffix _ d h
  | rframe n =>
    show lookupA (applyReq s r').2.frameCache n = some a
    have hext : ∃ d, (applyReq s r').2.frameCache = s.frameCache ++ d := by
      cases r' with
      | rfunc n' =>
        exact ⟨[], by
          rw [show (applyReq s (.rfunc n')).2 = (getOrCreateFunc s n').2
              from rfl,
            (func_other_fields s n').2.2.1, List.append_nil]⟩
      | rframe n' => exact (frame_cache_ext s n').1
      | rstack f' p' =>
        exact ⟨[], by
          rw [show (applyReq s (.rstack f' p')).2 = (getOrCreateStack s f' p').2
              from rfl,
            (stack_other_fields s f' p').2.1, List.append_nil]⟩
    obtain ⟨d, hd⟩ := hext
    rw [hd]
    exact lookupA_append_suffix _ d h
  | rstack f p =>
    show lookupA (applyReq s r').2.stackCache (f, p) = some a
    have hext : ∃ d, (applyReq s r').2.stackCache = s.stackCache ++ d := by
      cases r' with
      | rfunc n' =>
        exact ⟨[], by
          rw [show (applyReq s (.rfunc n')).2 = (getOrCreateFunc s n').2
              from rfl,
            (func_other_fields s n').2.2.2, List.append_nil]⟩
      | rframe n' =>
        exact ⟨[], by
          rw [show (applyReq s (.rframe n')).2 = (getOrCreateFrame s n').2
              from rfl,
            (frame_other_fields s n').2, List.append_nil]⟩
      | rstack f' p' => exact stack_cache_ext s f' p'
    obtain ⟨d, hd⟩ := hext
    rw [hd]
    exact lookupA_append_suffix _ d h

theorem runReqs_length (reqs : List TableReq) :
    ∀ s : Tables, (runReqs s reqs).1.length = reqs.length := by
  induction reqs with
  | nil => intro s; rfl
  | cons r rest ih =>
    intro s
    show ((applyReq s r).1 :: (runReqs (applyReq s r).2 rest).1).length =
      rest.length + 1
    rw [List.length_cons, ih (applyReq s r).2]

theorem runReqs_pos {r : TableReq} {a : Nat} :
    ∀ (rest : List TableReq) (s : Tables), CacheHit s r a →
      ∀ j : Nat, rest[j]? = some r → (runReqs s rest).1[j]? = some a := by
  intro rest
  induction rest with
  | nil =>
    intro s _ j hj
    simp at hj
  | cons r' rest' ih =>
    intro s hhit j hj
    cases j with
    | zero =>
      rw [List.getElem?_cons_zero] at hj
      have hr : r' = r := Option.some.inj hj
      show ((applyReq s r').1 :: (runReqs (applyReq s r').2 rest').1)[0]? =
        some a
      rw [List.getElem?_cons_zero, hr, cacheHit_apply hhit]
    | succ j' =>
      rw [List.getElem?_cons_succ] at hj
      show ((applyReq s r').1 ::
        (runReqs (applyReq s r').2 rest').1)[j' + 1]? = some a
      rw [List.getElem?_cons_succ]
      exact ih (applyReq s r').2 (applyReq_mono hhit r') j' hj

theorem runReqs_same_answer :
    ∀ (reqs : List TableReq) (s : Tables) (i j : Nat), i < j →
      reqs[i]? = reqs[j]? →
      (runReqs s reqs).1[i]? = (runReqs s reqs).1[j]? := by
  intro reqs
  induction reqs with
  | nil =>
    intro s i j _ _
    rfl
  | cons r rest ih =>
    intro s i j hij hreq
    cases i with
    | zero =>
      cases j with
      | zero => omega
      | succ j' =>
        rw [List.getElem?_cons_zero, List.getElem?_cons_succ] at hreq
        show ((applyReq s r).1 :: (runReqs (applyReq s r).2 rest).1)[0]? =
          ((applyReq s r).1 :: (runReqs (applyReq s r).2 rest).1)[j' + 1]?
        rw [List.getElem?_cons_zero, List.getElem?_cons_succ]
        exact (runReqs_pos rest (applyReq s r).2 (applyReq_post s r) j'
          hreq.symm).symm
    | succ i' =>
      cases j with
      | zero => omega
      | succ j' =>
        rw [List.getElem?_cons_succ, List.getElem?_cons_succ] at hreq
        show ((applyReq s r).1 ::
            (runReqs (applyReq s r).2 rest).1)[i' + 1]? =
          ((applyReq s r).1 :: (runReqs (applyReq s r).2 rest).1)[j' + 1]?
        rw [List.getElem?_cons_succ, List.getElem?_cons_succ]
        exact ih (applyReq s r).2 i' j' (by omega) hreq

/-- The structural invariant of a run's tables: row counts equal cache
sizes and no cache holds two entries for one key. -/
def GoodTables (s : Tables) : Prop :=
  s.funcName.length = s.funcCache.length ∧
    s.frameFunc.length = s.frameCache.length ∧
    s.stackFrame.length = s.stackCache.length ∧
    (s.funcCache.map Prod.fst).Nodup ∧
    (s.frameCache.map Prod.fst).Nodup ∧
    (s.stackCache.map Prod.fst).Nodup

theorem keys_append_nodup {α : Type} {ks : List α} {k : α}
    (hnd : ks.Nodup) (hk : k ∉ ks) : (ks ++ [k]).Nodup :=
  (List.perm_append_singleton k ks).nodup_iff.mpr (List.nodup_cons.mpr ⟨hk, hnd⟩)

theorem func_good (s : Tables) (n : String) (hg : GoodTables s) :
    GoodTables (getOrCreateFunc s n).2 ∧
      ∀ k ∈ (getOrCreateFunc s n).2.funcCache.map Prod.fst,
        k ∈ s.funcCache.map Prod.fst ∨ k = n := by
  obtain ⟨hs1, hs2, hs3, hn1, hn2, hn3⟩ := hg
  cases hl : lookupA s.funcCache n with
  | some i =>
    rw [func_hit hl]
    exact ⟨⟨hs1, hs2, hs3, hn1, hn2, hn3⟩, fun k hk => Or.inl hk⟩
  | none =>
    obtain ⟨h1, h2, h3⟩ := func_miss hl
    obtain ⟨hf1, hf2, hf3, hf4⟩ := func_other_fields s n
    have hkeys : (getOrCreateFunc s n).2.funcCache.map Prod.fst =
        s.funcCache.map Prod.fst ++ [n] := by
      rw [h2, List.map_append]
      rfl
    have hnotin : n ∉ s.funcCache.map Prod.fst :=
      (lookupA_none_iff _ _).mp hl
    refine ⟨⟨?_, ?_, ?_, ?_, ?_, ?_⟩, ?_⟩
    · rw [h3, h2, List.length_append, hs1]
      rfl
    · rw [hf1, hf3, hs2]
    · rw [hf2, hf4, hs3]
    · rw [hkeys]
      exact keys_append_nodup hn1 hnotin
    · rw [hf3]
      exact hn2
    · rw [hf4]
      exact hn3
    · intro k hk
      rw [hkeys] at hk
      rcases List.mem_append.mp hk with h | h
      · exact Or.inl h
      · exact Or.inr (List.mem_singleton.mp h)

theorem frame_good (s : Tables) (n : String) (hg : GoodTables s) :
    GoodTables (getOrCreateFrame s n).2 ∧
      (∀ k ∈ (getOrCreateFrame s n).2.funcCache.map Prod.fst,
        k ∈ s.funcCache.map Prod.fst ∨ k = n) ∧
      ∀ k ∈ (getOrCreateFrame s n).2.frameCache.map Prod.fst,
        k ∈ s.frameCache.map Prod.fst ∨ k = n := by
  cases hl : lookupA s.frameCache n with
  | some i =>
    rw [frame_hit hl]
    exact ⟨hg, fun k hk => Or.inl hk, fun k hk => Or.inl hk⟩
  | none =>
    obtain ⟨h1, h2, h3, h4, h5, h6, h7⟩ := frame_miss hl
    obtain ⟨hfg, hfk⟩ := func_good s n hg
    obtain ⟨hg1, hg2, hg3, hd1, hd2, hd3⟩ := hfg
    have hkeys : (getOrCreateFrame s n).2.frameCache.map Prod.fst =
        s.frameCache.map Prod.fst ++ [n] := by
      rw [h2, List.map_append]
      rfl
    have hnotin : n ∉ s.frameCache.map Prod.fst :=
      (lookupA_none_iff _ _).mp hl
    refine ⟨⟨?_, ?_, ?_, ?_, ?_, ?_⟩, ?_, ?_⟩
    · rw [h5, h4]
      exact hg1
    · rw [h3, h2, List.length_append, hg.2.1]
      rfl
    · rw [h6, h7]
      exact hg.2.2.1
    · rw [h4]
      exact hd1
    · rw [hkeys]
      exact keys_append_nodup hg.2.2.2.2.1 hnotin
    · rw [h7]
      exact hg.2.2.2.2.2
    · intro k hk
      rw [h4] at hk
      exact hfk k hk
    · intro k hk
      rw [hkeys] at hk
      rcases List.mem_append.mp hk with h | h
      · exact Or.inl h
      · exact Or.inr (List.mem_singleton.mp h)

theorem stack_good (s : Tables) (f : Nat) (p : Option Nat)
    (hg : GoodTables s) :
    GoodTables (getOrCreateStack s f p).2 ∧
      ∀ k ∈ (getOrCreateStack s f p).2.stackCache.map Prod.fst,
        k ∈ s.stackCache.map Prod.fst ∨ k = (f, p) := by
  cases hl : lookupA s.stackCache (f, p) with
  | some i =>
    rw [stack_hit hl]
    exact ⟨hg, fun k hk => Or.inl hk⟩
  | none =>
    obtain ⟨h1, h2, h3, h4, h5, h6, h7⟩ := stack_miss hl
    have hkeys : (getOrCreateStack s f p).2.stackCache.map Prod.fst =
        s.stackCache.map Prod.fst ++ [(f, p)] := by
      rw [h2, List.map_append]
      rfl
    have hnotin : (f, p) ∉ s.stackCache.map Prod.fst :=
      (lookupA_none_iff _ _).mp hl
    refine ⟨⟨?_, ?_, ?_, ?_, ?_, ?_⟩, ?_⟩
    · rw [h6, h4]
      exact hg.1
    · rw [h7, h5]
      exact hg.2.1
    · rw [h3, h2, List.length_append, hg.2.2.1]
      rfl
    · rw [h4]
      exact hg.2.2.2.1
    · rw [h5]
      exact hg.2.2.2.2.1
    · rw [hkeys]
      exact keys_append_nodup hg.2.2.2.2.2 hnotin
    · intro k hk
      rw [hkeys] at hk
      rcases List.mem_append.mp hk with h | h
      · exact Or.inl h
      · exact Or.inr (List.mem_singleton.mp h)

theorem applyReq_good (s : Tables) (r : TableReq) (hg : GoodTables s) :
    GoodTables (applyReq s r).2 ∧
      (∀ k ∈ (applyReq s r).2.funcCache.map Prod.fst,
        k ∈ s.funcCache.map Prod.fst ∨ k ∈ funcKeys [r]) ∧
      (∀ k ∈ (applyReq s r).2.frameCache.map Prod.fst,
        k ∈ s.frameCache.map Prod.fst ∨ k ∈ frameKeys [r]) ∧
      (∀ k ∈ (applyReq s r).2.stackCache.map Prod.fst,
        k ∈ s.stackCache.map Prod.fst ∨ k ∈ stackKeys [r]) := by
  cases r with
  | rfunc n =>
    obtain ⟨hgn, hkn⟩ := func_good s n hg
    obtain ⟨hf1, hf2, hf3, hf4⟩ := func_other_fields s n
    refine ⟨hgn, ?_, ?_, ?_⟩
    · intro k hk
      rcases hkn k hk with h | h
      · exact Or.inl h
      · exact Or.inr (by rw [h]; exact List.mem_singleton.mpr rfl)
    · intro k hk
      rw [show (applyReq s (.rfunc n)).2 = (getOrCreateFunc s n).2 from rfl,
        hf3] at hk
      exact Or.inl hk
    · intro k hk
      rw [show (applyReq s (.rfunc n)).2 = (getOrCreateFunc s n).2 from rfl,
        hf4] at hk
      exact Or.inl hk
  | rframe n =>
    obtain ⟨hgn, hkf, hkr⟩ := frame_good s n hg
    obtain ⟨hs1, hs2⟩ := frame_other_fields s n
    refine ⟨hgn, ?_, ?_, ?_⟩
    · intro k hk
      rcases hkf k hk with h | h
      · exact Or.inl h
      · exact Or.inr (by rw [h]; exact List.mem_singleton.mpr rfl)
    · intro k hk
      rcases hkr k hk with h | h
      · exact Or.inl h
      · exact Or.inr (by rw [h]; exact List.mem_singleton.mpr rfl)
    · intro k hk
      rw [show (applyReq s (.rframe n)).2 = (getOrCreateFrame s n).2 from rfl,
        hs2] at hk
      exact Or.inl hk
  | rstack f p =>
    obtain ⟨hgn, hks⟩ := stack_good s f p hg
    obtain ⟨ho1, ho2, ho3, ho4⟩ := stack_other_fields s f p
    refine ⟨hgn, ?_, ?_, ?_⟩
    · intro k hk
      rw [show (applyReq s (.rstack f p)).2 = (getOrCreateStack s f p).2
          from rfl, ho1] at hk
      exact Or.inl hk
    · intro k hk
      rw [show (applyReq s (.rstack f p)).2 = (getOrCreateStack s f p).2
          from rfl, ho2] at hk
      exact Or.inl hk
    · intro k hk
      rcases hks k hk with h | h
      · exact Or.inl h
      · exact Or.inr (by rw [h]; exact List.mem_singleton.mpr rfl)

theorem mem_filterMap_tail {α β : Type} (f : α → Option β) (a : α)
    (l : List α) : ∀ b ∈ l.filterMap f, b ∈ (a :: l).filterMap f := by
  rw [List.filterMap_cons]
  cases f a with
  | none => exact fun b hb => hb
  | some b' => exact fun b hb => List.mem_cons_of_mem _ hb

theorem mem_filterMap_head {α β : Type} (f : α → Option β) (a : α)
    (l : List α) : ∀ b ∈ [a].filterMap f, b ∈ (a :: l).filterMap f := by
  intro b hb
  rw [List.filterMap_cons] at hb ⊢
  revert hb
  cases hf : f a with
  | none =>
    intro hb
    exact absurd hb (List.not_mem_nil b)
  | some b' =>
    intro hb
    rcases List.mem_cons.mp hb with h | h
    · rw [h]
      exact List.mem_cons_self _ _
    · exact absurd h (List.not_mem_nil b)

theorem runReqs_good_keys :
    ∀ (reqs : List TableReq) (s : Tables), GoodTables s →
      GoodTables (runReqs s reqs).2 ∧
        (∀ k ∈ (runReqs s reqs).2.funcCache.map Prod.fst,
          k ∈ s.funcCache.map Prod.fst ∨ k ∈ funcKeys reqs) ∧
        (∀ k ∈ (runReqs s reqs).2.frameCache.map Prod.fst,
          k ∈ s.frameCache.map Prod.fst ∨ k ∈ frameKeys reqs) ∧
        (∀ k ∈ (runReqs s reqs).2.stackCache.map Prod.fst,
          k ∈ s.stackCache.map Prod.fst ∨ k ∈ stackKeys reqs) := by
  intro reqs
  induction reqs with
  | nil =>
    intro s hg
    exact ⟨hg, fun k hk => Or.inl hk, fun k hk => Or.inl hk,
      fun k hk => Or.inl hk⟩
  | cons r rest ih =>
    intro s hg
    obtain ⟨hg1, hkf1, hkr1, hks1⟩ := applyReq_good s r hg
    obtain ⟨hg2, hkf2, hkr2, hks2⟩ := ih (applyReq s r).2 hg1
    have hrun : (runReqs s (r :: rest)).2 =
        (runReqs (applyReq s r).2 rest).2 := rfl
    rw [hrun]
    refine ⟨hg2, ?_, ?_, ?_⟩
    · intro k hk
      rcases hkf2 k hk with h | h
      · rcases hkf1 k h with h' | h'
        · exact Or.inl h'
        · exact Or.inr (mem_filterMap_head _ r rest k h')
      · exact Or.inr (mem_filterMap_tail _ r rest k h)
    · intro k hk
      rcases hkr2 k hk with h | h
      · rcases hkr1 k h with h' | h'
        · exact Or.inl h'
        · exact Or.inr (mem_filterMap_head _ r rest k h')
      · exact Or.inr (mem_filterMap_tail _ r rest k h)
    · intro k hk
      rcases hks2 k hk with h | h
      · rcases hks1 k h with h' | h'
        · exact Or.inl h'
        · exact Or.inr (mem_filterMap_head _ r rest k h')
      · exact Or.inr (mem_filterMap_tail _ r rest k h)

theorem nodup_subset_length_le {α : Type} [DecidableEq α] {l m : List α}
    (hnd : l.Nodup) (hsub : ∀ x ∈ l, x ∈ m) :
    l.length ≤ m.dedup.length := by
  have h1 : l.toFinset.card = l.length := List.toFinset_card_of_nodup hnd
  have h2 : l.toFinset ⊆ m.toFinset := by
    intro x hx
    exact List.mem_toFinset.mpr (hsub x (List.mem_toFinset.mp hx))
  have h3 := Finset.card_le_card h2
  rw [h1, List.card_toFinset] at h3
  exact h3

/-- C9: during one profiler-serialization run, requesting a function by the
same name, a frame by the same name, or a stack by the same (frame index,
parent stack) pair twice returns the same table index both times, and the
function, frame and stack tables' lengths never exceed the number of
distinct keys requested from each. -/
theorem table_identity_dedup (reqs : List TableReq) :
    (∀ i j : Nat, reqs[i]? = reqs[j]? →
      (runReqs initTables reqs).1[i]? = (runReqs initTables reqs).1[j]?) ∧
      (runReqs initTables reqs).2.funcName.length ≤
        (funcKeys reqs).dedup.length ∧
      (runReqs initTables reqs).2.frameFunc.length ≤
        (frameKeys reqs).dedup.length ∧
      (runReqs initTables reqs).2.stackFrame.length ≤
        (stackKeys reqs).dedup.length := by
  have hinit : GoodTables initTables :=
    ⟨rfl, rfl, rfl, by simp [initTables], by simp [initTables],
      by simp [initTables]⟩
  obtain ⟨hg, hkf, hkr, hks⟩ := runReqs_good_keys reqs initTables hinit
  refine ⟨?_, ?_, ?_, ?_⟩
  · intro i j hij
    rcases Nat.lt_trichotomy i j with h | h | h
    · exact runReqs_same_answer reqs initTables i j h hij
    · rw [h]
    · exact (runReqs_same_answer reqs initTables j i h hij.symm).symm
  · have hb := nodup_subset_length_le hg.2.2.2.1 (fun k hk => by
      rcases hkf k hk with h | h
      · simp [initTables] at h
      · exact h)
    rw [List.length_map] at hb
    rw [hg.1]
    exact hb
  · have hb := nodup_subset_length_le hg.2.2.2.2.1 (fun k hk => by
      rcases hkr k hk with h | h
      · simp [initTables] at h
      · exact h)
    rw [List.length_map] at hb
    rw [hg.2.1]
    exact hb
  · have hb := nodup_subset_length_le hg.2.2.2.2.2 (fun k hk => by
      rcases hks k hk with h | h
      · simp [initTables] at h
      · exact h)
    rw [List.length_map] at hb
    rw [hg.2.2.1]
    exact hb

/-- The request sequence used to run C9: two identical frame requests and
two identical stack requests. -/
def c9Reqs : List TableReq :=
  [.rframe "a.h", .rstack 0 none, .rframe "a.h", .rstack 0 none]

theorem table_identity_dedup_witness :
    c9Reqs[0]? = c9Reqs[2]? ∧
      (runReqs initTables c9Reqs).1[0]? = (runReqs initTables c9Reqs).1[2]? ∧
      (runReqs initTables c9Reqs).2.funcName.length ≤
        (funcKeys c9Reqs).dedup.length ∧
      (runReqs initTables c9Reqs).2.frameFunc.length ≤
        (frameKeys c9Reqs).dedup.length ∧
      (runReqs initTables c9Reqs).2.stackFrame.length ≤
        (stackKeys c9Reqs).dedup.length := by
  refine ⟨by decide, ?_, ?_, ?_, ?_⟩
  · exact (table_identity_dedup c9Reqs).1 0 2 (by decide)
  · exact (table_identity_dedup c9Reqs).2.1
  · exact (table_identity_dedup c9Reqs).2.2.1
  · exact (table_identity_dedup c9Reqs).2.2.2

/-- A concrete trace for witnesses: one reused key with begin/end pairs. -/
def witnessTrace : List RawEvent :=
  [ { ph := "b", ts := 1000, cat := "Source", name := "Source",
      pid := 1, tid := 2, id := 3, detail := some "a.h" },
    { ph := "e", ts := 2000, cat := "Source", name := "Source",
      pid := 1, tid := 2, id := 3, detail := none },
    { ph := "b", ts := 2500, cat := "Source", name := "Source",
      pid := 1, tid := 2, id := 3, detail := some "b.h" },
    { ph := "e", ts := 2600, cat := "Source", name := "Source",
      pid := 1, tid := 2, id := 3, detail := none } ]

theorem matcher_intervals_positive_witness :
    (⟨"a.h", 1000, 2000, 1000⟩ : Interval) ∈ extractIntervals witnessTrace ∧
      ((⟨"a.h", 1000, 2000, 1000⟩ : Interval).startTime < (⟨"a.h", 1000, 2000, 1000⟩ : Interval).endTime ∧
        (⟨"a.h", 1000, 2000, 1000⟩ : Interval).duration =
          (⟨"a.h", 1000, 2000, 1000⟩ : Interval).endTime - (⟨"a.h", 1000, 2000, 1000⟩ : Interval).startTime ∧
        0 < (⟨"a.h", 1000, 2000, 1000⟩ : Interval).duration) :=
  ⟨by decide, matcher_intervals_positive witnessTrace _ (by decide)⟩

/-- A concrete run of the amended C1 statement: on `witnessTrace` the matcher
and the first-in-input-order specification produce the same two intervals. -/
theorem matcher_eq_first_in_order_spec_witness :
    extractIntervals witnessTrace = specFirstExtract witnessTrace ∧
      extractIntervals witnessTrace =
        ([⟨"a.h", 1000, 2000, 1000⟩, ⟨"b.h", 2500, 2600, 100⟩] :
          List Interval) := by
  refine ⟨matcher_eq_first_in_order_spec witnessTrace, ?_⟩
  decide

end ClangIncludes
